import Mathlib

/-!
Verification of kpwgen, a pronounceable password generator.

A shallow embedding of `kpwgen.go`: the buffered random byte source
(`RNG`, `NewRNG`, `GetByte`) and the password assembly (`GetPassword`),
followed by theorems about them.

Conventions of the embedding.
* A Go `byte` is a `Nat` below 256; a conversion `byte(x)` is `x % 256`.
* A Go `int` is an `Int`, taken to be 64 bits wide; the one addition that can
  leave that range (`pwlen + 2`) is wrapped by `wrapInt`. Every other `int` of the
  program is a byte value, a table index or a buffer length.
* Memory is bounded where the program asks for it: `pw.Grow` panics on a negative
  count and on a count above `lim`, the largest count the machine can allocate,
  which is a parameter of `GetPassword`.
* The operating system's random source is a parameter `Entropy`: what each
  successive call of `rand.Read` delivers.
* A procedure yields an `Outcome`: a normal return, `os.Exit(1)`, a run-time
  panic, or `outOfFuel` when the bound given to a loop of the model is used up.
* The command-line flags `*digit`, `*upper`, `*punct` are read-only inside
  `GetPassword` and are passed as arguments.
-/

namespace Kpwgen

/-- Ways in which a Go procedure of the program can end. -/
inductive Outcome (α : Type) where
  /-- Normal return with a value. -/
  | ok : α → Outcome α
  /-- The process was ended by `os.Exit(1)`. -/
  | exit : Outcome α
  /-- A run-time panic (index out of range, division by zero, negative `Grow`). -/
  | panic : Outcome α
  /-- The loop bound of the model was reached while a loop was still running. -/
  | outOfFuel : Outcome α
deriving DecidableEq, Repr

/-- Sequencing of two procedures. -/
def Outcome.bind {α β : Type} (x : Outcome α) (f : α → Outcome β) : Outcome β :=
  match x with
  | .ok a => f a
  | .exit => .exit
  | .panic => .panic
  | .outOfFuel => .outOfFuel

/-- Filtered koremutake syllables (`var syllables`). -/
def syllables : List String := [
  "ba", "be", "bi", "bo", "bu", "by", "da", "de", "di",
  "do", "du", "dy", "fe", "fi", "fo", "fu", "fy", "ga", "ge", "gi", "go", "gu",
  "gy", "ha", "he", "hi", "ho", "hu", "hy", "ja", "je", "ji", "jo", "ju", "jy",
  "ka", "ke", "ko", "ku", "ky", "la", "le", "li", "lo", "", "lu", "ly", "ma",
  "me", "mi", "mo", "mu", "my", "na", "ne", "ni", "no", "nu", "ny", "pa", "pe",
  "pi", "po", "pu", "py", "ra", "re", "ri", "ro", "", "ru", "ry", "sa", "se",
  "si", "so", "su", "sy", "ta", "te", "ti", "to", "tu", "ty", "va", "ve", "vi",
  "vo", "vu", "vy", "bra", "bre", "bri", "", "bro", "bru", "bry", "dra", "dre",
  "dri", "dro", "dru", "dry", "fra", "fre", "fri", "fro", "fru", "fry", "gra",
  "gre", "gri", "", "gro", "gru", "gry", "pra", "pre", "pri", "pro", "pru",
  "pry", "sta", "ste", "sti", "sto", "stu", "sty", "tra", "tre", "er", "", "ed",
  "in", "ex", "al", "en", "an", "ad", "or", "at", "ca", "ap", "el", "ci", "an",
  "et", "it", "ob", "of", "af", "au", "cy", "im", "op", "co", "", "up", "ing",
  "con", "ter", "com", "per", "ble", "der", "cal", "man", "est", "for", "mer",
  "col", "ful", "get", "low", "son", "", "tle", "day", "pen", "pre", "ten",
  "tor", "ver", "ber", "can", "ple", "fer", "gen", "den", "mag", "sub", "sur",
  "men", "min", "", "out", "tal", "but", "cit", "cle", "cov", "dif", "ern",
  "eve", "hap", "ket", "nal", "sup", "ted", "tem", "tin", "tro", "tro"]

/-- Punctuation characters (`var punctuation`), as code points:
``! " # $ % & ( ) * + , - . / : ; < = > ? @ [ ] ^ _ ` { | } ~``. -/
def punctuation : List Nat := [33, 34, 35, 36, 37, 38, 40, 41, 42, 43,
  44, 45, 46, 47, 58, 59, 60, 61, 62, 63, 64, 91, 93, 94,
  95, 96, 123, 124, 125, 126]

/-- Number of random bytes to ask for at a time (`const poolSize`). -/
def poolSize : Nat := 128

/-- The bytes of a Go string, `[]byte(s)`. Every string of the program is ASCII,
so its UTF-8 bytes are its code points. -/
def strBytes (s : String) : List Nat := s.data.map Char.toNat

/-- Go's `int` arithmetic result brought back into the signed 64-bit range. -/
def wrapInt (x : Int) : Int := (x + 2 ^ 63) % 2 ^ 64 - 2 ^ 63

/-- Go's `a % b` on `int`: truncated remainder, and a panic (`none`) when `b` is zero. -/
def goMod (a b : Int) : Option Int := if b = 0 then none else some (Int.tmod a b)

/-- Go's slice read `xs[i]`: `none` stands for the index-out-of-range panic. -/
def sliceGet (xs : List Nat) (i : Int) : Option Nat :=
  if i < 0 then none else xs[i.toNat]?

/-- Go's slice write `xs[i] = v`: `none` stands for the index-out-of-range panic. -/
def sliceSet (xs : List Nat) (i : Int) (v : Nat) : Option (List Nat) :=
  if i < 0 ∨ (xs.length : Int) ≤ i then none else some (xs.set i.toNat v)

/-- Go's `unicode.ToUpper` on the runes below 256, the only ones a byte converts to:
ASCII `a`-`z`, the micro sign, the Latin-1 lowercase letters and `ÿ` have an
upper case, every other rune is returned unchanged. -/
def toUpper (r : Nat) : Nat :=
  if r ≤ 127 then (if 97 ≤ r ∧ r ≤ 122 then r - 32 else r)
  else if r = 181 then 924
  else if (224 ≤ r ∧ r ≤ 246) ∨ (248 ≤ r ∧ r ≤ 254) then r - 32
  else if r = 255 then 376
  else r

/-- The random pool (`type RNG struct`). -/
structure RNG where
  pool : List Nat
  i : Int
deriving DecidableEq, Repr

/-- The operating system's random source: `E k` is what the `k`-th call of
`rand.Read` does, `none` for an error, `some f` for a success that stores the byte
`f j % 256` at offset `j` of the slice it is given. -/
abbrev Entropy := Nat → Option (Nat → Nat)

/-- The state a run threads through: the `RNG` and how many times `rand.Read`
has been called so far. -/
structure St where
  rng : RNG
  reads : Nat
deriving DecidableEq, Repr

/-- Constructor `NewRNG`: a zeroed pool of `poolSize` bytes and cursor 0. -/
def NewRNG : RNG := ⟨List.replicate poolSize 0, 0⟩

/-- The state at program start: a fresh `RNG`, no read made yet. -/
def St.init : St := ⟨NewRNG, 0⟩

/-- The `len` bytes a successful read `f` stores into a slice of length `len`. -/
def fill (f : Nat → Nat) (len : Nat) : List Nat :=
  (List.range len).map fun j => f j % 256

/-- Call `rand.Read(buf)` number `k`: on success every byte of `buf` is replaced. -/
def randRead (E : Entropy) (k : Nat) (buf : List Nat) : Option (List Nat) :=
  match E k with
  | none => none
  | some f => some (fill f buf.length)

/-- Method `(*RNG).GetByte`: refill the whole pool when the cursor is 0 (exit on a
read error), return the byte under the cursor as an `int`, advance the cursor
modulo `poolSize`. -/
def GetByte (E : Entropy) (s : St) : Outcome (Nat × St) :=
  let refilled : Outcome St :=
    if s.rng.i = 0 then
      match randRead E s.reads s.rng.pool with
      | none => .exit
      | some p => .ok ⟨⟨p, s.rng.i⟩, s.reads + 1⟩
    else .ok s
  refilled.bind fun s1 =>
    match sliceGet s1.rng.pool s1.rng.i with
    | none => .panic
    | some b => .ok (b, ⟨⟨s1.rng.pool, Int.tmod (s1.rng.i + 1) poolSize⟩, s1.reads⟩)

/-- The first loop of `GetPassword`: while the buffer is shorter than `pwlen`,
draw a byte, mask it with `len(syllables) - 1` and append the syllable at that
index. `fuel` bounds the number of iterations. -/
def sylLoop (E : Entropy) (pwlen : Int) : Nat → List Nat → St → Outcome (List Nat × St)
  | 0, pw, s => if (pw.length : Int) < pwlen then .outOfFuel else .ok (pw, s)
  | fuel + 1, pw, s =>
    if (pw.length : Int) < pwlen then
      (GetByte E s).bind fun r =>
        let n := r.1 &&& (syllables.length - 1)
        match syllables[n]? with
        | none => .panic
        | some syl => sylLoop E pwlen fuel (pw ++ strBytes syl) r.2
    else .ok (pw, s)

/-- The retry loops of `GetPassword` (`for { c = r.GetByte() % (len(pwb) - 1);
if accept(c) { break } }`): draw candidates until one is accepted. `len` is
`len(pwb)` and `fuel` bounds the number of iterations. -/
def pickIndex (E : Entropy) (len : Nat) (accept : Int → Bool) :
    Nat → St → Outcome (Int × St)
  | 0, _ => .outOfFuel
  | fuel + 1, s =>
    (GetByte E s).bind fun r =>
      match goMod r.1 ((len : Int) - 1) with
      | none => .panic
      | some c => if accept c then .ok (c, r.2) else pickIndex E len accept fuel r.2

/-- The digit step: `di = -1`, and when `*digit` is set, `di` is a byte modulo
`len(pwb) - 1` and `pwb[di]` becomes `byte('0' + b&9)` for a second byte `b`. -/
def digitStep (E : Entropy) (digit : Bool) (pwb : List Nat) (s : St) :
    Outcome ((List Nat × Int) × St) :=
  if digit then
    (GetByte E s).bind fun r1 =>
      match goMod r1.1 ((pwb.length : Int) - 1) with
      | none => .panic
      | some di =>
        (GetByte E r1.2).bind fun r2 =>
          let d := 48 + (r2.1 &&& 9)
          match sliceSet pwb di (d % 256) with
          | none => .panic
          | some pwb1 => .ok ((pwb1, di), r2.2)
  else .ok ((pwb, -1), s)

/-- The uppercase step: `ui = -1`, and when `*upper` is set, `ui` is the first
candidate different from `di` and `pwb[ui]` is replaced by its upper case. -/
def upperStep (E : Entropy) (fuel : Nat) (upper : Bool) (di : Int) (pwb : List Nat) (s : St) :
    Outcome ((List Nat × Int) × St) :=
  if upper then
    (pickIndex E pwb.length (fun ui => ui != di) fuel s).bind fun r =>
      match sliceGet pwb r.1 with
      | none => .panic
      | some c =>
        match sliceSet pwb r.1 (toUpper c % 256) with
        | none => .panic
        | some pwb1 => .ok ((pwb1, r.1), r.2)
  else .ok ((pwb, -1), s)

/-- The punctuation step: when `*punct` is set, `pi` is the first candidate
different from `di` and `ui`, and `pwb[pi]` becomes the punctuation character at
index `b & (len(punctuation) - 1)` for one more byte `b`. -/
def punctStep (E : Entropy) (fuel : Nat) (punct : Bool) (di ui : Int) (pwb : List Nat) (s : St) :
    Outcome (List Nat × St) :=
  if punct then
    (pickIndex E pwb.length (fun pi => pi != di && pi != ui) fuel s).bind fun r =>
      (GetByte E r.2).bind fun r2 =>
        let pn := r2.1 &&& (punctuation.length - 1)
        match punctuation[pn]? with
        | none => .panic
        | some pc =>
          match sliceSet pwb r.1 (pc % 256) with
          | none => .panic
          | some pwb1 => .ok (pwb1, r2.2)
  else .ok (pwb, s)

/-- Library call `(*bytes.Buffer).Grow(n)` on the empty buffer panics: on a negative
count, and with `bytes.ErrTooLarge` on a count that cannot be allocated. `lim` is
the largest count the machine can allocate. -/
def growPanics (lim : Nat) (n : Int) : Prop := n < 0 ∨ (lim : Int) < n

instance (lim : Nat) (n : Int) : Decidable (growPanics lim n) := by
  unfold growPanics; infer_instance

/-- Method `(*RNG).GetPassword`. The result is the pair `(string, error)` that Go
returns, the string as its bytes and `nil` as `none`, with the state left behind.
`lim` is the largest count `pw.Grow` can allocate and `fuel` bounds the
iterations of each loop. -/
def GetPassword (lim : Nat) (E : Entropy) (fuel : Nat) (digit upper punct : Bool) (s : St)
    (pwlen : Int) : Outcome ((List Nat × Option String) × St) :=
  -- `pw.Grow(pwlen + 2)`
  if growPanics lim (wrapInt (pwlen + 2)) then .panic
  else
    (sylLoop E pwlen fuel [] s).bind fun r0 =>
      (digitStep E digit r0.1 r0.2).bind fun r1 =>
        (upperStep E fuel upper r1.1.2 r1.1.1 r1.2).bind fun r2 =>
          (punctStep E fuel punct r1.1.2 r2.1.2 r2.1.1 r2.2).bind fun r3 =>
            .ok ((r3.1, none), r3.2)

/-- A random source that never fails and delivers the bytes of `bs` over and over,
zero when `bs` is empty. -/
def cyc (bs : List Nat) : Entropy := fun k => some fun j => bs.getD ((k * poolSize + j) % bs.length) 0

/-- A sample allocation limit: 2^48 bytes. -/
def demoLimit : Nat := 2 ^ 48

/-- A sample random source: the bytes 128, 0, 1, ..., 7 over and over. -/
def demoEntropy : Entropy := cyc [128, 0, 1, 2, 3, 4, 5, 6, 7]

/-- The pool after the first refill from `demoEntropy`. -/
def demoPool : List Nat :=
  (List.range 128).map fun j => [128, 0, 1, 2, 3, 4, 5, 6, 7].getD (j % 9) 0

/-- What the `k`-th read of `demoEntropy` delivers. -/
def demoFill : Nat → Nat → Nat :=
  fun k j => [128, 0, 1, 2, 3, 4, 5, 6, 7].getD ((k * poolSize + j) % 9) 0

/-- The syllable a drawn byte selects, as bytes. -/
def token (b : Nat) : List Nat :=
  strBytes (syllables.getD (b &&& (syllables.length - 1)) "")

/-- The concatenation, in draw order, of the syllables a list of bytes selects. -/
def sylConcat : List Nat → List Nat
  | [] => []
  | b :: bs => token b ++ sylConcat bs

/-- Draw `n` bytes in a row with `GetByte`. -/
def drawBytes (E : Entropy) : Nat → St → Outcome (List Nat × St)
  | 0, s => .ok ([], s)
  | n + 1, s =>
    (GetByte E s).bind fun r =>
      (drawBytes E n r.2).bind fun q => .ok (r.1 :: q.1, q.2)

/-- The state `n` successful calls of `GetByte` after program start, when the
`k`-th read delivers `F k`: the pool holds the latest fill, the cursor is
`n % poolSize`, and one read was made per `poolSize` calls begun. -/
def stateAfter (F : Nat → Nat → Nat) (n : Nat) : St :=
  ⟨⟨if n = 0 then List.replicate poolSize 0 else fill (F ((n - 1) / poolSize)) poolSize,
    ((n % poolSize : Nat) : Int)⟩, (n + poolSize - 1) / poolSize⟩

/-- The state invariant of the byte source: a pool of `poolSize` bytes and a
cursor inside it. -/
def St.wf (s : St) : Prop :=
  s.rng.pool.length = poolSize ∧ 0 ≤ s.rng.i ∧ s.rng.i < (poolSize : Int)

instance (s : St) : Decidable s.wf := by unfold St.wf; infer_instance

/-- The procedure does not panic, and if it returns, its result satisfies `P`. -/
def Outcome.safe {α : Type} (P : α → Prop) : Outcome α → Prop
  | .ok a => P a
  | .panic => False
  | _ => True

/-- Variant of the first loop that follows the spec's words "modulo tableSize":
the index is the byte modulo `len(syllables)` instead of the byte masked with
`len(syllables) - 1`. It is not in the source and serves only for comparison
with `sylLoop`. -/
def sylLoopMod (E : Entropy) (pwlen : Int) : Nat → List Nat → St → Outcome (List Nat × St)
  | 0, pw, s => if (pw.length : Int) < pwlen then .outOfFuel else .ok (pw, s)
  | fuel + 1, pw, s =>
    if (pw.length : Int) < pwlen then
      (GetByte E s).bind fun r =>
        let n := r.1 % syllables.length
        match syllables[n]? with
        | none => .panic
        | some syl => sylLoopMod E pwlen fuel (pw ++ strBytes syl) r.2
    else .ok (pw, s)

/-- Variant of `GetPassword` with the first loop replaced by `sylLoopMod`. It is
not in the source and serves only for comparison with `GetPassword`. -/
def GetPasswordMod (lim : Nat) (E : Entropy) (fuel : Nat) (digit upper punct : Bool)
    (s : St) (pwlen : Int) : Outcome ((List Nat × Option String) × St) :=
  if growPanics lim (wrapInt (pwlen + 2)) then .panic
  else
    (sylLoopMod E pwlen fuel [] s).bind fun r0 =>
      (digitStep E digit r0.1 r0.2).bind fun r1 =>
        (upperStep E fuel upper r1.1.2 r1.1.1 r1.2).bind fun r2 =>
          (punctStep E fuel punct r1.1.2 r2.1.2 r2.1.1 r2.2).bind fun r3 =>
            .ok ((r3.1, none), r3.2)

/-- Apply a function to the value a procedure returns. -/
def Outcome.map {α β : Type} (f : α → β) : Outcome α → Outcome β
  | .ok a => .ok (f a)
  | .exit => .exit
  | .panic => .panic
  | .outOfFuel => .outOfFuel

/-- Two sources deliver an identical sequence of bytes: for every `n`, drawing `n`
bytes from `s` with `E` and from `s1` with `E1` ends the same way and, on a
return, with the same bytes. -/
def sameStream (E E1 : Entropy) (s s1 : St) : Prop :=
  ∀ n, (drawBytes E n s).map Prod.fst = (drawBytes E1 n s1).map Prod.fst

/-- Two runs, started from `s` with `E` and from `s1` with `E1`, agree: they end
the same way, and when they return, they return the same value, have drawn the
same bytes, and leave sources that again deliver identical bytes. -/
def Agree {α : Type} (E E1 : Entropy) (s s1 : St) :
    Outcome (α × St) → Outcome (α × St) → Prop
  | .ok x, .ok y => x.1 = y.1 ∧ sameStream E E1 x.2 y.2 ∧
      ∃ n bs, drawBytes E n s = .ok (bs, x.2) ∧ drawBytes E1 n s1 = .ok (bs, y.2)
  | .exit, .exit => True
  | .panic, .panic => True
  | .outOfFuel, .outOfFuel => True
  | _, _ => False

/-- A second sample source: it stores `demoFill k j + 256`, hence the same bytes
as `demoEntropy`. -/
def demoEntropyShifted : Entropy := fun k => some fun j => demoFill k j + 256

/-- The fills `F` up to stream position `p` (the byte at offset `j` of fill `k` has
position `k * poolSize + j`), continued from position `p` on by the bytes of
`cont` and then zeros. -/
def spliceFill (F : Nat → Nat → Nat) (p : Nat) (cont : List Nat) : Nat → Nat → Nat :=
  fun k j => if k * poolSize + j < p then F k j else cont.getD (k * poolSize + j - p) 0

/-- ASCII lowercase letter. -/
def isLower (c : Nat) : Prop := 97 ≤ c ∧ c ≤ 122

/-- ASCII uppercase letter. -/
def isUpper (c : Nat) : Prop := 65 ≤ c ∧ c ≤ 90

/-- ASCII digit. -/
def isDigit (c : Nat) : Prop := 48 ≤ c ∧ c ≤ 57

instance (c : Nat) : Decidable (isLower c) := by unfold isLower; infer_instance
instance (c : Nat) : Decidable (isUpper c) := by unfold isUpper; infer_instance
instance (c : Nat) : Decidable (isDigit c) := by unfold isDigit; infer_instance

/-! ## Basic facts -/

theorem Outcome.bind_eq_ok {α β : Type} (x : Outcome α) (f : α → Outcome β) (b : β) :
    x.bind f = .ok b ↔ ∃ a, x = .ok a ∧ f a = .ok b := by
  cases x <;> simp [Outcome.bind]

@[simp] theorem Outcome.bind_ok {α β : Type} (a : α) (f : α → Outcome β) :
    (Outcome.ok a).bind f = f a := rfl

theorem and_mod256 (b m : Nat) (hm : m < 256) : b &&& m = (b % 256) &&& m := by
  have h1 : m &&& (2 ^ 8 - 1) = m :=
    Nat.and_pow_two_sub_one_of_lt_two_pow (by simpa using hm)
  have h2 : b &&& (2 ^ 8 - 1) = b % 2 ^ 8 := Nat.and_pow_two_sub_one_eq_mod b 8
  calc b &&& m = b &&& (m &&& (2 ^ 8 - 1)) := by rw [h1]
    _ = (b &&& (2 ^ 8 - 1)) &&& m := by rw [Nat.and_comm m, Nat.and_assoc]
    _ = (b % 256) &&& m := by rw [h2]; norm_num

set_option maxRecDepth 100000 in
theorem token_facts_lt : ∀ b < 256, syllables[b &&& (syllables.length - 1)]? = some
      (syllables.getD (b &&& (syllables.length - 1)) "") ∧
    2 ≤ (token b).length ∧ (token b).length ≤ 3 ∧ ∀ c ∈ token b, isLower c := by
  decide

theorem syllables_length : syllables.length = 213 := rfl

theorem token_facts (b : Nat) : syllables[b &&& (syllables.length - 1)]? = some
      (syllables.getD (b &&& (syllables.length - 1)) "") ∧
    2 ≤ (token b).length ∧ (token b).length ≤ 3 ∧ ∀ c ∈ token b, isLower c := by
  have h := token_facts_lt (b % 256) (Nat.mod_lt _ (by decide))
  have e : b &&& (syllables.length - 1) = (b % 256) &&& (syllables.length - 1) :=
    and_mod256 b _ (by rw [syllables_length]; decide)
  unfold token at h ⊢
  rw [e]
  exact h

theorem sylConcat_lower : ∀ (bs : List Nat), ∀ c ∈ sylConcat bs, isLower c
  | [], c, h => by simp [sylConcat] at h
  | b :: bs, c, h => by
    simp only [sylConcat, List.mem_append] at h
    rcases h with h | h
    · exact (token_facts b).2.2.2 c h
    · exact sylConcat_lower bs c h

/-! ## The syllable loop -/

theorem sylLoop_zero (E : Entropy) (pwlen : Int) (pw : List Nat) (s : St) :
    sylLoop E pwlen 0 pw s =
      if (pw.length : Int) < pwlen then .outOfFuel else .ok (pw, s) := rfl

set_option maxRecDepth 100000 in
theorem sylLoop_succ (E : Entropy) (pwlen : Int) (fuel : Nat) (pw : List Nat) (s : St) :
    sylLoop E pwlen (fuel + 1) pw s =
      if (pw.length : Int) < pwlen then
        (GetByte E s).bind fun r =>
          match syllables[r.1 &&& (syllables.length - 1)]? with
          | none => .panic
          | some syl => sylLoop E pwlen fuel (pw ++ strBytes syl) r.2
      else .ok (pw, s) := rfl

/-- What a returning syllable loop has done: it drew some bytes `bs`, appended
their syllables, stopped with at least `pwlen` bytes, and before each draw the
buffer was still shorter than `pwlen`. -/
theorem sylLoop_ok (E : Entropy) (pwlen : Int) :
    ∀ (fuel : Nat) (pw : List Nat) (s : St) (pw1 : List Nat) (s1 : St),
      sylLoop E pwlen fuel pw s = .ok (pw1, s1) →
      ∃ bs, drawBytes E bs.length s = .ok (bs, s1) ∧ pw1 = pw ++ sylConcat bs ∧
        pwlen ≤ (pw1.length : Int) ∧
        ∀ k, k < bs.length → ((pw ++ sylConcat (bs.take k)).length : Int) < pwlen := by
  intro fuel
  induction fuel with
  | zero =>
    intro pw s pw1 s1 h
    rw [sylLoop_zero] at h
    split at h
    · cases h
    · injection h with h
      injection h with h1 h2
      subst h1 h2
      exact ⟨[], rfl, by simp [sylConcat], by omega, by simp⟩
  | succ fuel ih =>
    intro pw s pw1 s1 h
    rw [sylLoop_succ] at h
    split at h
    · rename_i hlt
      rw [Outcome.bind_eq_ok] at h
      obtain ⟨r, hr, h⟩ := h
      simp only [(token_facts r.1).1] at h
      obtain ⟨bs, hd, hpw, hge, hbefore⟩ := ih _ _ _ _ h
      refine ⟨r.1 :: bs, ?_, ?_, hge, ?_⟩
      · simp only [List.length_cons, drawBytes, hr, Outcome.bind_ok, hd]
      · rw [hpw]; simp [sylConcat, token]
      · intro k hk
        cases k with
        | zero => simpa [sylConcat] using hlt
        | succ k =>
          have := hbefore k (by simpa using hk)
          simpa [sylConcat, token] using this
    · injection h with h
      injection h with h1 h2
      subst h1 h2
      exact ⟨[], rfl, by simp [sylConcat], by omega, by simp⟩

/-! ## The injection steps -/

theorem goMod_nat (b L : Nat) (hL : 2 ≤ L) :
    goMod (b : Int) ((L : Int) - 1) = some ((b % (L - 1) : Nat) : Int) := by
  have h0 : (L : Int) - 1 ≠ 0 := by omega
  have h1 : (L : Int) - 1 = ((L - 1 : Nat) : Int) := by omega
  simp only [goMod, h0, if_false]
  rw [h1]
  exact congrArg some (Int.ofNat_tmod b (L - 1)).symm

theorem sliceSet_eq_some (xs : List Nat) (i : Int) (v : Nat) (ys : List Nat) :
    sliceSet xs i v = some ys ↔ 0 ≤ i ∧ i < (xs.length : Int) ∧ ys = xs.set i.toNat v := by
  unfold sliceSet
  split
  · constructor
    · intro h; cases h
    · intro h; omega
  · constructor
    · intro h
      injection h with h
      exact ⟨by omega, by omega, h.symm⟩
    · intro h
      rw [h.2.2]

theorem sliceGet_eq_some (xs : List Nat) (i : Int) (c : Nat) :
    sliceGet xs i = some c ↔ 0 ≤ i ∧ xs[i.toNat]? = some c := by
  unfold sliceGet
  split
  · constructor
    · intro h; cases h
    · intro h; omega
  · constructor
    · intro h; exact ⟨by omega, h⟩
    · intro h; exact h.2

/-- A returning retry loop ends with a draw whose candidate is accepted. -/
theorem pickIndex_ok (E : Entropy) (len : Nat) (accept : Int → Bool) :
    ∀ (fuel : Nat) (s : St) (c : Int) (s1 : St),
      pickIndex E len accept fuel s = .ok (c, s1) →
      ∃ b s0, GetByte E s0 = .ok (b, s1) ∧ goMod (b : Int) ((len : Int) - 1) = some c ∧
        accept c = true := by
  intro fuel
  induction fuel with
  | zero => intro s c s1 h; cases h
  | succ fuel ih =>
    intro s c s1 h
    unfold pickIndex at h
    rw [Outcome.bind_eq_ok] at h
    obtain ⟨r, hr, h⟩ := h
    split at h
    · cases h
    · rename_i c0 hc0
      split at h
      · rename_i hacc
        injection h with h
        injection h with h1 h2
        subst h1 h2
        exact ⟨r.1, s, hr, hc0, hacc⟩
      · exact ih _ _ _ h

/-- What a returning digit step has done. -/
theorem digitStep_ok (E : Entropy) (digit : Bool) (pwb : List Nat) (s : St)
    (pwb1 : List Nat) (di : Int) (s1 : St)
    (h : digitStep E digit pwb s = .ok ((pwb1, di), s1)) :
    (digit = false ∧ pwb1 = pwb ∧ di = -1 ∧ s1 = s) ∨
    (digit = true ∧ ∃ b1 s0 b2, GetByte E s = .ok (b1, s0) ∧ GetByte E s0 = .ok (b2, s1) ∧
      goMod (b1 : Int) ((pwb.length : Int) - 1) = some di ∧
      0 ≤ di ∧ di < (pwb.length : Int) ∧
      pwb1 = pwb.set di.toNat ((48 + (b2 &&& 9)) % 256)) := by
  unfold digitStep at h
  split at h
  · rename_i hd
    right
    rw [Outcome.bind_eq_ok] at h
    obtain ⟨r1, hr1, h⟩ := h
    split at h
    · cases h
    · rename_i c hc
      rw [Outcome.bind_eq_ok] at h
      obtain ⟨r2, hr2, h⟩ := h
      dsimp only at h
      split at h
      · cases h
      · rename_i ys hys
        injection h with h
        injection h with h1 h2
        injection h1 with h1 h3
        subst h1 h2 h3
        rw [sliceSet_eq_some] at hys
        exact ⟨hd, r1.1, r1.2, r2.1, hr1, hr2, hc, hys.1, hys.2.1, hys.2.2⟩
  · rename_i hd
    left
    injection h with h
    injection h with h1 h2
    injection h1 with h1 h3
    exact ⟨by simpa using hd, h1.symm, h3.symm, h2.symm⟩

/-- What a returning uppercase step has done. -/
theorem upperStep_ok (E : Entropy) (fuel : Nat) (upper : Bool) (di : Int) (pwb : List Nat)
    (s : St) (pwb1 : List Nat) (ui : Int) (s1 : St)
    (h : upperStep E fuel upper di pwb s = .ok ((pwb1, ui), s1)) :
    (upper = false ∧ pwb1 = pwb ∧ ui = -1 ∧ s1 = s) ∨
    (upper = true ∧ ∃ b s0 c, GetByte E s0 = .ok (b, s1) ∧
      goMod (b : Int) ((pwb.length : Int) - 1) = some ui ∧ ui ≠ di ∧
      0 ≤ ui ∧ ui < (pwb.length : Int) ∧ pwb[ui.toNat]? = some c ∧
      pwb1 = pwb.set ui.toNat (toUpper c % 256)) := by
  unfold upperStep at h
  split at h
  · rename_i hu
    right
    rw [Outcome.bind_eq_ok] at h
    obtain ⟨r, hr, h⟩ := h
    obtain ⟨b, s0, hb, hm, hacc⟩ := pickIndex_ok E _ _ _ _ _ _ hr
    split at h
    · cases h
    · rename_i c hc
      split at h
      · cases h
      · rename_i ys hys
        injection h with h
        injection h with h1 h2
        injection h1 with h1 h3
        subst h1 h2 h3
        rw [sliceSet_eq_some] at hys
        rw [sliceGet_eq_some] at hc
        exact ⟨hu, b, s0, c, hb, hm, by simpa using hacc, hys.1, hys.2.1, hc.2, hys.2.2⟩
  · rename_i hu
    left
    injection h with h
    injection h with h1 h2
    injection h1 with h1 h3
    exact ⟨by simpa using hu, h1.symm, h3.symm, h2.symm⟩

/-- What a returning punctuation step has done. -/
theorem punctStep_ok (E : Entropy) (fuel : Nat) (punct : Bool) (di ui : Int) (pwb : List Nat)
    (s : St) (pwb1 : List Nat) (s1 : St)
    (h : punctStep E fuel punct di ui pwb s = .ok (pwb1, s1)) :
    (punct = false ∧ pwb1 = pwb ∧ s1 = s) ∨
    (punct = true ∧ ∃ (b : Nat) (s0 s2 : St) (b2 pc : Nat) (pi : Int), GetByte E s0 = .ok (b, s2) ∧
      GetByte E s2 = .ok (b2, s1) ∧
      goMod (b : Int) ((pwb.length : Int) - 1) = some pi ∧ pi ≠ di ∧ pi ≠ ui ∧
      0 ≤ pi ∧ pi < (pwb.length : Int) ∧
      punctuation[b2 &&& (punctuation.length - 1)]? = some pc ∧
      pwb1 = pwb.set pi.toNat (pc % 256)) := by
  unfold punctStep at h
  split at h
  · rename_i hp
    right
    rw [Outcome.bind_eq_ok] at h
    obtain ⟨r, hr, h⟩ := h
    obtain ⟨b, s0, hb, hm, hacc⟩ := pickIndex_ok E _ _ _ _ _ _ hr
    rw [Outcome.bind_eq_ok] at h
    obtain ⟨r2, hr2, h⟩ := h
    dsimp only at h
    split at h
    · cases h
    · rename_i pc hpc
      split at h
      · cases h
      · rename_i ys hys
        injection h with h
        injection h with h1 h2
        subst h1 h2
        rw [sliceSet_eq_some] at hys
        simp only [Bool.and_eq_true, bne_iff_ne, ne_eq] at hacc
        exact ⟨hp, b, s0, r.2, r2.1, pc, r.1, hb, hr2, hm, hacc.1, hacc.2, hys.1, hys.2.1,
          hpc, hys.2.2⟩
  · rename_i hp
    left
    injection h with h
    injection h with h1 h2
    exact ⟨by simpa using hp, h1.symm, h2.symm⟩

theorem punctuation_facts : ∀ pc ∈ punctuation,
    pc < 256 ∧ pc ≠ 39 ∧ pc ≠ 92 ∧ ¬ isLower pc ∧ ¬ isUpper pc ∧ ¬ isDigit pc := by
  decide

theorem digit_value (b : Nat) : isDigit (48 + (b &&& 9)) ∧ (48 + (b &&& 9)) % 256 = 48 + (b &&& 9) := by
  have h : b &&& 9 ≤ 9 := Nat.and_le_right
  unfold isDigit
  omega

theorem set_lookup (xs : List Nat) (i : Nat) (v : Nat) (hi : i < xs.length) (j c : Nat)
    (hj : xs[j]? = some c) : (xs.set i v)[j]? = some (if j = i then v else c) := by
  rw [List.getElem?_set]
  by_cases h : i = j
  · subst h; simp [hi]
  · have h2 : ¬ j = i := fun e => h e.symm
    simp [h, h2, hj]

/-- Byte by byte effect of a returning digit step on a buffer of two bytes or more. -/
theorem digitStep_get (E : Entropy) (digit : Bool) (pwb : List Nat) (s : St)
    (pwb1 : List Nat) (di : Int) (s1 : St)
    (h : digitStep E digit pwb s = .ok ((pwb1, di), s1)) (hL : 2 ≤ pwb.length) :
    pwb1.length = pwb.length ∧
    (if digit then 0 ≤ di ∧ di + 1 < (pwb.length : Int) else di = -1) ∧
    ∃ dv, isDigit dv ∧
      ∀ (j c : Nat), pwb[j]? = some c → pwb1[j]? = some (if (j : Int) = di then dv else c) := by
  rcases digitStep_ok E digit pwb s pwb1 di s1 h with ⟨hd, hp, hdi, _⟩ | ⟨hd, b1, s0, b2, _, _, hm, h0, hlt, hp⟩
  · subst hd hp hdi
    refine ⟨rfl, by simp, 48, by unfold isDigit; omega, ?_⟩
    intro j c hj
    have : ¬ ((j : Int) = -1) := by omega
    simp [this, hj]
  · subst hd
    rw [goMod_nat b1 pwb.length hL] at hm
    injection hm with hm
    have hb : b1 % (pwb.length - 1) < pwb.length - 1 := Nat.mod_lt _ (by omega)
    subst hm
    rw [(digit_value b2).2] at hp
    simp only [Int.toNat_ofNat] at hp
    subst hp
    refine ⟨by simp, ?_, 48 + (b2 &&& 9), (digit_value b2).1, ?_⟩
    · simp only [if_true]; omega
    · intro j c hj
      rw [set_lookup _ _ _ (by omega) j c hj]
      simp only [Nat.cast_inj]

/-- Byte by byte effect of a returning uppercase step on a buffer of two bytes or more. -/
theorem upperStep_get (E : Entropy) (fuel : Nat) (upper : Bool) (di : Int) (pwb : List Nat)
    (s : St) (pwb1 : List Nat) (ui : Int) (s1 : St)
    (h : upperStep E fuel upper di pwb s = .ok ((pwb1, ui), s1)) (hL : 2 ≤ pwb.length) :
    pwb1.length = pwb.length ∧
    (if upper then 0 ≤ ui ∧ ui + 1 < (pwb.length : Int) ∧ ui ≠ di else ui = -1) ∧
    ∀ (j c : Nat), pwb[j]? = some c →
      pwb1[j]? = some (if (j : Int) = ui then toUpper c % 256 else c) := by
  rcases upperStep_ok E fuel upper di pwb s pwb1 ui s1 h with
    ⟨hu, hp, hui, _⟩ | ⟨hu, b, s0, c0, _, hm, hne, h0, hlt, hc0, hp⟩
  · subst hu hp hui
    refine ⟨rfl, by simp, ?_⟩
    intro j c hj
    have : ¬ ((j : Int) = -1) := by omega
    simp [this, hj]
  · subst hu
    rw [goMod_nat b pwb.length hL] at hm
    injection hm with hm
    have hb : b % (pwb.length - 1) < pwb.length - 1 := Nat.mod_lt _ (by omega)
    subst hm
    simp only [Int.toNat_ofNat] at hp hc0
    subst hp
    refine ⟨by simp, ?_, ?_⟩
    · simp only [if_true]; exact ⟨by omega, by omega, hne⟩
    · intro j c hj
      rw [set_lookup _ _ _ (by omega) j c hj]
      simp only [Nat.cast_inj]
      by_cases e : j = b % (pwb.length - 1)
      · subst e
        rw [hj] at hc0
        injection hc0 with hc0
        subst hc0
        simp
      · simp [e]

/-- Byte by byte effect of a returning punctuation step on a buffer of two bytes or more. -/
theorem punctStep_get (E : Entropy) (fuel : Nat) (punct : Bool) (di ui : Int) (pwb : List Nat)
    (s : St) (pwb1 : List Nat) (s1 : St)
    (h : punctStep E fuel punct di ui pwb s = .ok (pwb1, s1)) (hL : 2 ≤ pwb.length) :
    pwb1.length = pwb.length ∧
    ∃ (pi : Int) (pc : Nat),
      (if punct then 0 ≤ pi ∧ pi + 1 < (pwb.length : Int) ∧ pi ≠ di ∧ pi ≠ ui else pi = -1) ∧
      pc ∈ punctuation ∧
      ∀ (j c : Nat), pwb[j]? = some c → pwb1[j]? = some (if (j : Int) = pi then pc else c) := by
  rcases punctStep_ok E fuel punct di ui pwb s pwb1 s1 h with
    ⟨hu, hp, _⟩ | ⟨hu, b, s0, s2, b2, pc, pi, _, _, hm, hne1, hne2, h0, hlt, hpc, hp⟩
  · subst hu hp
    refine ⟨rfl, -1, 33, by simp, by decide, ?_⟩
    intro j c hj
    have : ¬ ((j : Int) = -1) := by omega
    simp [this, hj]
  · subst hu
    rw [goMod_nat b pwb.length hL] at hm
    injection hm with hm
    have hb : b % (pwb.length - 1) < pwb.length - 1 := Nat.mod_lt _ (by omega)
    subst hm
    have hmem : pc ∈ punctuation := List.getElem?_mem hpc
    rw [Nat.mod_eq_of_lt (punctuation_facts pc hmem).1] at hp
    simp only [Int.toNat_ofNat] at hp
    subst hp
    refine ⟨by simp, ((b % (pwb.length - 1) : Nat) : Int), pc, ?_, hmem, ?_⟩
    · simp only [if_true]; exact ⟨by omega, by omega, hne1, hne2⟩
    · intro j c hj
      rw [set_lookup _ _ _ (by omega) j c hj]
      simp only [Nat.cast_inj]

/-- A returning `GetPassword` is the four phases in a row, with a `nil` error. -/
theorem GetPassword_ok (lim : Nat) (E : Entropy) (fuel : Nat) (digit upper punct : Bool) (s : St)
    (pwlen : Int) (r : List Nat × Option String) (s4 : St)
    (h : GetPassword lim E fuel digit upper punct s pwlen = .ok (r, s4)) :
    ¬ growPanics lim (wrapInt (pwlen + 2)) ∧
    ∃ syl s1 pwb1 di s2 pwb2 ui s3,
      sylLoop E pwlen fuel [] s = .ok (syl, s1) ∧
      digitStep E digit syl s1 = .ok ((pwb1, di), s2) ∧
      upperStep E fuel upper di pwb1 s2 = .ok ((pwb2, ui), s3) ∧
      punctStep E fuel punct di ui pwb2 s3 = .ok (r.1, s4) ∧ r.2 = none := by
  unfold GetPassword at h
  split at h
  · cases h
  · rename_i hg
    refine ⟨hg, ?_⟩
    rw [Outcome.bind_eq_ok] at h
    obtain ⟨r0, h0, h⟩ := h
    rw [Outcome.bind_eq_ok] at h
    obtain ⟨r1, h1, h⟩ := h
    rw [Outcome.bind_eq_ok] at h
    obtain ⟨r2, h2, h⟩ := h
    rw [Outcome.bind_eq_ok] at h
    obtain ⟨r3, h3, h⟩ := h
    injection h with h
    injection h with ha hb
    subst ha hb
    exact ⟨r0.1, r0.2, r1.1.1, r1.1.2, r1.2, r2.1.1, r2.1.2, r2.2, h0, h1, h2, h3, rfl⟩

theorem sylConcat_append (xs ys : List Nat) :
    sylConcat (xs ++ ys) = sylConcat xs ++ sylConcat ys := by
  induction xs with
  | nil => rfl
  | cons x xs ih => simp [sylConcat, ih]

/-- Length and content of what a returning syllable loop, started on the empty
buffer with a positive target, has built. -/
theorem sylLoop_len (E : Entropy) (pwlen : Int) (fuel : Nat) (s s1 : St) (syl : List Nat)
    (h : sylLoop E pwlen fuel [] s = .ok (syl, s1)) (hlen : 1 ≤ pwlen) :
    pwlen ≤ (syl.length : Int) ∧ (syl.length : Int) ≤ pwlen + 2 ∧ 2 ≤ syl.length ∧
    ∀ c ∈ syl, isLower c := by
  obtain ⟨bs, _, hpw, hge, hbefore⟩ := sylLoop_ok E pwlen fuel [] s syl s1 h
  simp only [List.nil_append] at hpw hbefore
  subst hpw
  refine ⟨hge, ?_, ?_, sylConcat_lower bs⟩
  · rcases List.eq_nil_or_concat bs with e | ⟨init, b, e⟩
    · subst e; simp [sylConcat] at hge; omega
    · rw [List.concat_eq_append] at e
      subst e
      have hk := hbefore init.length (by simp)
      simp only [List.take_left] at hk
      have ht := (token_facts b).2.2.1
      rw [sylConcat_append, List.length_append]
      have e1 : sylConcat [b] = token b := by simp [sylConcat]
      rw [e1]
      push_cast
      omega
  · cases bs with
    | nil => simp [sylConcat] at hge; omega
    | cons b bs =>
      have ht := (token_facts b).2.1
      show 2 ≤ (token b ++ sylConcat bs).length
      rw [List.length_append]
      omega

theorem toUpper_lower (c : Nat) (h : isLower c) : toUpper c % 256 = c - 32 := by
  unfold isLower at h
  unfold toUpper
  have h1 : c ≤ 127 := by omega
  have h2 : 97 ≤ c ∧ c ≤ 122 := h
  simp only [h1, h2, and_self, if_true]
  omega

/-- Anatomy of a returned password for a positive target: it has the length of
the syllable concatenation `syl`, the error is `nil`, and there are positions
`di`, `ui`, `pi` (each `-1` when its flag is off, otherwise below `len - 1` and
different from the earlier ones) such that the byte at `pi` is a punctuation
character, the byte at `ui` the upper case of the syllable letter, the byte at `di`
a digit, and every other byte the syllable letter. -/
theorem GetPassword_anatomy (lim : Nat) (E : Entropy) (fuel : Nat) (digit upper punct : Bool) (s : St)
    (pwlen : Int) (r : List Nat × Option String) (s4 : St)
    (h : GetPassword lim E fuel digit upper punct s pwlen = .ok (r, s4)) (hlen : 1 ≤ pwlen) :
    ∃ (syl : List Nat) (s1 : St) (di ui pi : Int) (dv pc : Nat),
      sylLoop E pwlen fuel [] s = .ok (syl, s1) ∧
      r.1.length = syl.length ∧ r.2 = none ∧
      (if digit then 0 ≤ di ∧ di + 1 < (syl.length : Int) else di = -1) ∧
      (if upper then 0 ≤ ui ∧ ui + 1 < (syl.length : Int) ∧ ui ≠ di else ui = -1) ∧
      (if punct then 0 ≤ pi ∧ pi + 1 < (syl.length : Int) ∧ pi ≠ di ∧ pi ≠ ui else pi = -1) ∧
      isDigit dv ∧ pc ∈ punctuation ∧
      ∀ (j c : Nat), syl[j]? = some c →
        r.1[j]? = some (if (j : Int) = pi then pc else if (j : Int) = ui then c - 32
          else if (j : Int) = di then dv else c) := by
  obtain ⟨_, syl, s1, pwb1, di, s2, pwb2, ui, s3, h0, h1, h2, h3, herr⟩ :=
    GetPassword_ok lim E fuel digit upper punct s pwlen r s4 h
  obtain ⟨_, _, hL, hlow⟩ := sylLoop_len E pwlen fuel s s1 syl h0 hlen
  obtain ⟨hl1, hdi, dv, hdv, hg1⟩ := digitStep_get E digit syl s1 pwb1 di s2 h1 hL
  obtain ⟨hl2, hui, hg2⟩ := upperStep_get E fuel upper di pwb1 s2 pwb2 ui s3 h2 (by omega)
  obtain ⟨hl3, pi, pc, hpi, hpc, hg3⟩ :=
    punctStep_get E fuel punct di ui pwb2 s3 r.1 s4 h3 (by omega)
  rw [hl1] at hui hl2
  rw [hl2] at hpi hl3
  refine ⟨syl, s1, di, ui, pi, dv, pc, h0, hl3, herr, hdi, hui, hpi, hdv, hpc, ?_⟩
  intro j c hj
  rw [hg3 j _ (hg2 j _ (hg1 j c hj))]
  congr 1
  by_cases e3 : (j : Int) = pi
  · simp only [e3, if_true]
  · simp only [e3, if_false]
    by_cases e2 : (j : Int) = ui
    · have hne : ¬ ((j : Int) = di) := by
        cases upper
        · simp only [Bool.false_eq_true, if_false] at hui; omega
        · simp only [if_true] at hui; rw [e2]; exact hui.2.2
      simp only [e2, if_true]
      rw [← e2]
      simp only [hne, if_false]
      exact toUpper_lower c (hlow c (List.getElem?_mem hj))
    · simp only [e2, if_false]

/-- With a target of zero or less a returning syllable loop has appended nothing. -/
theorem sylLoop_nonpos (E : Entropy) (pwlen : Int) (fuel : Nat) (s s1 : St) (syl : List Nat)
    (h : sylLoop E pwlen fuel [] s = .ok (syl, s1)) (hlen : pwlen ≤ 0) :
    syl = [] ∧ s1 = s := by
  cases fuel with
  | zero =>
    rw [sylLoop_zero] at h
    have hn : ¬ ((([] : List Nat).length : Int) < pwlen) := by simp; omega
    simp only [hn, if_false] at h
    injection h with h
    injection h with h1 h2
    exact ⟨h1.symm, h2.symm⟩
  | succ fuel =>
    rw [sylLoop_succ] at h
    have hn : ¬ ((([] : List Nat).length : Int) < pwlen) := by simp; omega
    simp only [hn, if_false] at h
    injection h with h
    injection h with h1 h2
    exact ⟨h1.symm, h2.symm⟩

/-- None of the three injection steps changes the length of the buffer. -/
theorem GetPassword_len_eq (lim : Nat) (E : Entropy) (fuel : Nat) (digit upper punct : Bool) (s : St)
    (pwlen : Int) (r : List Nat × Option String) (s4 : St)
    (h : GetPassword lim E fuel digit upper punct s pwlen = .ok (r, s4)) :
    ∃ syl s1, sylLoop E pwlen fuel [] s = .ok (syl, s1) ∧ r.1.length = syl.length := by
  obtain ⟨_, syl, s1, pwb1, di, s2, pwb2, ui, s3, h0, h1, h2, h3, _⟩ :=
    GetPassword_ok lim E fuel digit upper punct s pwlen r s4 h
  refine ⟨syl, s1, h0, ?_⟩
  have e1 : pwb1.length = syl.length := by
    rcases digitStep_ok E digit syl s1 pwb1 di s2 h1 with ⟨_, hp, _⟩ | ⟨_, _, _, _, _, _, _, _, _, hp⟩
    · rw [hp]
    · rw [hp, List.length_set]
  have e2 : pwb2.length = pwb1.length := by
    rcases upperStep_ok E fuel upper di pwb1 s2 pwb2 ui s3 h2 with
      ⟨_, hp, _⟩ | ⟨_, _, _, _, _, _, _, _, _, _, hp⟩
    · rw [hp]
    · rw [hp, List.length_set]
  have e3 : r.1.length = pwb2.length := by
    rcases punctStep_ok E fuel punct di ui pwb2 s3 r.1 s4 h3 with
      ⟨_, hp, _⟩ | ⟨_, _, _, _, _, _, _, _, _, _, _, _, _, _, _, hp⟩
    · rw [hp]
    · rw [hp, List.length_set]
  omega

/-! ## Length and character classes of the result -/

/-- C1: for a target `pwlen ≥ 1`, any flags and any random source, a password
that `GetPassword` returns has a length between `pwlen` and `pwlen + 2`. -/
theorem GetPassword_length_bounds (lim : Nat) (E : Entropy) (fuel : Nat) (digit upper punct : Bool)
    (s : St) (pwlen : Int) (r : List Nat × Option String) (s4 : St) (hlen : 1 ≤ pwlen)
    (h : GetPassword lim E fuel digit upper punct s pwlen = .ok (r, s4)) :
    pwlen ≤ (r.1.length : Int) ∧ (r.1.length : Int) ≤ pwlen + 2 := by
  obtain ⟨syl, s1, h0, hl⟩ := GetPassword_len_eq lim E fuel digit upper punct s pwlen r s4 h
  obtain ⟨h1, h2, _, _⟩ := sylLoop_len E pwlen fuel s s1 syl h0 hlen
  rw [hl]
  exact ⟨h1, h2⟩

set_option maxRecDepth 100000 in
theorem GetPassword_length_bounds_witness :
    ((1 : Int) ≤ 8 ∧
      GetPassword demoLimit demoEntropy 100 true true true St.init 8 =
        .ok (([116, 114, 97, 48, 97, 66, 38, 98, 97], none), ⟨⟨demoPool, 9⟩, 1⟩)) ∧
    ((8 : Int) ≤ (([116, 114, 97, 48, 97, 66, 38, 98, 97] : List Nat).length : Int) ∧
      (([116, 114, 97, 48, 97, 66, 38, 98, 97] : List Nat).length : Int) ≤ 8 + 2) :=
  ⟨by decide, GetPassword_length_bounds demoLimit demoEntropy 100 true true true St.init 8
    ([116, 114, 97, 48, 97, 66, 38, 98, 97], none) ⟨⟨demoPool, 9⟩, 1⟩ (by decide) (by decide)⟩

/-- C2: for a target `pwlen ≥ 1`, whatever the other flags are, a returned
password contains a digit when the digit flag is set, an uppercase letter when
the upper flag is set, and a character of the punctuation table when the punct
flag is set. -/
theorem GetPassword_has_classes (lim : Nat) (E : Entropy) (fuel : Nat) (digit upper punct : Bool)
    (s : St) (pwlen : Int) (r : List Nat × Option String) (s4 : St) (hlen : 1 ≤ pwlen)
    (h : GetPassword lim E fuel digit upper punct s pwlen = .ok (r, s4)) :
    (digit = true → ∃ c ∈ r.1, isDigit c) ∧
    (upper = true → ∃ c ∈ r.1, isUpper c) ∧
    (punct = true → ∃ c ∈ r.1, c ∈ punctuation) := by
  obtain ⟨syl, s1, di, ui, pi, dv, pc, h0, hl, _, hdi, hui, hpi, hdv, hpc, hget⟩ :=
    GetPassword_anatomy lim E fuel digit upper punct s pwlen r s4 h hlen
  obtain ⟨_, _, _, hlow⟩ := sylLoop_len E pwlen fuel s s1 syl h0 hlen
  refine ⟨?_, ?_, ?_⟩
  · intro hd
    subst hd
    simp only [if_true] at hdi
    have hj : di.toNat < syl.length := by omega
    have hg := hget di.toNat _ (List.getElem?_eq_getElem hj)
    have e1 : ((di.toNat : Nat) : Int) = di := by omega
    have n1 : ¬ (di = pi) := by
      cases punct
      · simp only [Bool.false_eq_true, if_false] at hpi; omega
      · simp only [if_true] at hpi; exact fun e => hpi.2.2.1 e.symm
    have n2 : ¬ (di = ui) := by
      cases upper
      · simp only [Bool.false_eq_true, if_false] at hui; omega
      · simp only [if_true] at hui; exact fun e => hui.2.2 e.symm
    simp only [e1, n1, n2, if_false, if_true] at hg
    exact ⟨dv, List.getElem?_mem hg, hdv⟩
  · intro hu
    subst hu
    simp only [if_true] at hui
    have hj : ui.toNat < syl.length := by omega
    have hg := hget ui.toNat _ (List.getElem?_eq_getElem hj)
    have e1 : ((ui.toNat : Nat) : Int) = ui := by omega
    have n1 : ¬ (ui = pi) := by
      cases punct
      · simp only [Bool.false_eq_true, if_false] at hpi; omega
      · simp only [if_true] at hpi; exact fun e => hpi.2.2.2 e.symm
    simp only [e1, n1, if_false, if_true] at hg
    have hc := hlow _ (List.getElem_mem hj)
    refine ⟨_, List.getElem?_mem hg, ?_⟩
    unfold isLower at hc
    unfold isUpper
    omega
  · intro hp
    subst hp
    simp only [if_true] at hpi
    have hj : pi.toNat < syl.length := by omega
    have hg := hget pi.toNat _ (List.getElem?_eq_getElem hj)
    have e1 : ((pi.toNat : Nat) : Int) = pi := by omega
    simp only [e1, if_true] at hg
    exact ⟨pc, List.getElem?_mem hg, hpc⟩

set_option maxRecDepth 100000 in
theorem GetPassword_has_classes_witness :
    ((1 : Int) ≤ 5 ∧
      GetPassword demoLimit demoEntropy 100 true false true St.init 5 =
        .ok (([116, 48, 97, 37, 97], none), ⟨⟨demoPool, 6⟩, 1⟩)) ∧
    ((true = true → ∃ c ∈ ([116, 48, 97, 37, 97] : List Nat), isDigit c) ∧
      (false = true → ∃ c ∈ ([116, 48, 97, 37, 97] : List Nat), isUpper c) ∧
      (true = true → ∃ c ∈ ([116, 48, 97, 37, 97] : List Nat), c ∈ punctuation)) :=
  ⟨by decide, GetPassword_has_classes demoLimit demoEntropy 100 true false true St.init 5
    ([116, 48, 97, 37, 97], none) ⟨⟨demoPool, 6⟩, 1⟩ (by decide) (by decide)⟩

/-- C3: with all three flags set and a target `pwlen ≥ 1`, a returned password
of length `L` has three pairwise different positions `d`, `u`, `p` below `L - 1`
holding a digit, an uppercase letter and a punctuation-table character, and
every other position holds a lowercase letter, the one the syllable
concatenation has there. -/
theorem GetPassword_three_positions (lim : Nat) (E : Entropy) (fuel : Nat) (s : St) (pwlen : Int)
    (r : List Nat × Option String) (s4 : St) (hlen : 1 ≤ pwlen)
    (h : GetPassword lim E fuel true true true s pwlen = .ok (r, s4)) :
    ∃ (syl : List Nat) (s1 : St), sylLoop E pwlen fuel [] s = .ok (syl, s1) ∧
      r.1.length = syl.length ∧
      ∃ d u p : Nat, d ≠ u ∧ d ≠ p ∧ u ≠ p ∧
        d + 1 < r.1.length ∧ u + 1 < r.1.length ∧ p + 1 < r.1.length ∧
        (∃ c, r.1[d]? = some c ∧ isDigit c) ∧
        (∃ c, r.1[u]? = some c ∧ isUpper c) ∧
        (∃ c, r.1[p]? = some c ∧ c ∈ punctuation) ∧
        ∀ j, j < r.1.length → j ≠ d → j ≠ u → j ≠ p →
          ∃ c, r.1[j]? = some c ∧ syl[j]? = some c ∧ isLower c := by
  obtain ⟨syl, s1, di, ui, pi, dv, pc, h0, hl, _, hdi, hui, hpi, hdv, hpc, hget⟩ :=
    GetPassword_anatomy lim E fuel true true true s pwlen r s4 h hlen
  obtain ⟨_, _, _, hlow⟩ := sylLoop_len E pwlen fuel s s1 syl h0 hlen
  simp only [if_true] at hdi hui hpi
  have ed : ((di.toNat : Nat) : Int) = di := by omega
  have eu : ((ui.toNat : Nat) : Int) = ui := by omega
  have ep : ((pi.toNat : Nat) : Int) = pi := by omega
  have hjd : di.toNat < syl.length := by omega
  have hju : ui.toNat < syl.length := by omega
  have hjp : pi.toNat < syl.length := by omega
  refine ⟨syl, s1, h0, hl, di.toNat, ui.toNat, pi.toNat, by omega, by omega, by omega,
    by omega, by omega, by omega, ?_, ?_, ?_, ?_⟩
  · have hg := hget di.toNat _ (List.getElem?_eq_getElem hjd)
    have n1 : ¬ (di = pi) := fun e => hpi.2.2.1 e.symm
    have n2 : ¬ (di = ui) := fun e => hui.2.2 e.symm
    simp only [ed, n1, n2, if_false, if_true] at hg
    exact ⟨dv, hg, hdv⟩
  · have hg := hget ui.toNat _ (List.getElem?_eq_getElem hju)
    have n1 : ¬ (ui = pi) := fun e => hpi.2.2.2 e.symm
    simp only [eu, n1, if_false, if_true] at hg
    have hc := hlow _ (List.getElem_mem hju)
    refine ⟨_, hg, ?_⟩
    unfold isLower at hc
    unfold isUpper
    omega
  · have hg := hget pi.toNat _ (List.getElem?_eq_getElem hjp)
    simp only [ep, if_true] at hg
    exact ⟨pc, hg, hpc⟩
  · intro j hj n1 n2 n3
    have hjs : j < syl.length := by omega
    have hg := hget j _ (List.getElem?_eq_getElem hjs)
    have m1 : ¬ ((j : Int) = pi) := by omega
    have m2 : ¬ ((j : Int) = ui) := by omega
    have m3 : ¬ ((j : Int) = di) := by omega
    simp only [m1, m2, m3, if_false] at hg
    exact ⟨_, hg, List.getElem?_eq_getElem hjs, hlow _ (List.getElem_mem hjs)⟩

/-- C4: for every target, every flag setting and every random source, a returned
password contains neither the single quote (0x27) nor the backslash (0x5C). -/
theorem GetPassword_no_quote_backslash (lim : Nat) (E : Entropy) (fuel : Nat) (digit upper punct : Bool)
    (s : St) (pwlen : Int) (r : List Nat × Option String) (s4 : St)
    (h : GetPassword lim E fuel digit upper punct s pwlen = .ok (r, s4)) :
    ∀ c ∈ r.1, c ≠ 39 ∧ c ≠ 92 := by
  intro x hx
  by_cases hlen : 1 ≤ pwlen
  · obtain ⟨syl, s1, di, ui, pi, dv, pc, h0, hl, _, _, _, _, hdv, hpc, hget⟩ :=
      GetPassword_anatomy lim E fuel digit upper punct s pwlen r s4 h hlen
    obtain ⟨_, _, _, hlow⟩ := sylLoop_len E pwlen fuel s s1 syl h0 hlen
    obtain ⟨j, hj⟩ := List.mem_iff_getElem?.mp hx
    have hjr : j < r.1.length := by
      by_contra hn
      rw [List.getElem?_eq_none (by omega)] at hj
      cases hj
    have hjs : j < syl.length := by omega
    have hg := hget j _ (List.getElem?_eq_getElem hjs)
    rw [hj] at hg
    injection hg with hg
    have hc := hlow _ (List.getElem_mem hjs)
    have hp := punctuation_facts pc hpc
    unfold isLower at hc
    unfold isDigit at hdv
    subst hg
    split
    · exact ⟨hp.2.1, hp.2.2.1⟩
    · split
      · omega
      · split <;> omega
  · obtain ⟨syl, s1, h0, hl⟩ := GetPassword_len_eq lim E fuel digit upper punct s pwlen r s4 h
    obtain ⟨he, _⟩ := sylLoop_nonpos E pwlen fuel s s1 syl h0 (by omega)
    subst he
    have : r.1 = [] := List.length_eq_zero.mp hl
    rw [this] at hx
    cases hx

set_option maxRecDepth 100000 in
theorem GetPassword_no_quote_backslash_witness :
    GetPassword demoLimit demoEntropy 100 true true true St.init 8 =
      .ok (([116, 114, 97, 48, 97, 66, 38, 98, 97], none), ⟨⟨demoPool, 9⟩, 1⟩) ∧
    ∀ c ∈ ([116, 114, 97, 48, 97, 66, 38, 98, 97] : List Nat), c ≠ 39 ∧ c ≠ 92 :=
  ⟨by decide, GetPassword_no_quote_backslash demoLimit demoEntropy 100 true true true St.init 8
    ([116, 114, 97, 48, 97, 66, 38, 98, 97], none) ⟨⟨demoPool, 9⟩, 1⟩ (by decide)⟩

set_option maxRecDepth 100000 in
theorem GetPassword_three_positions_witness :
    ((1 : Int) ≤ 20 ∧
      GetPassword demoLimit demoEntropy 100 true true true St.init 20 =
        .ok (([49, 114, 65, 37, 97, 98, 97, 98, 97, 98, 97, 98, 117, 98, 117, 98, 117, 98, 117,
          116, 114, 97], none), ⟨⟨demoPool, 15⟩, 1⟩)) ∧
    ∃ (syl : List Nat) (s1 : St), sylLoop demoEntropy 20 100 [] St.init = .ok (syl, s1) ∧
      ([49, 114, 65, 37, 97, 98, 97, 98, 97, 98, 97, 98, 117, 98, 117, 98, 117, 98, 117, 116,
        114, 97] : List Nat).length = syl.length ∧
      ∃ d u p : Nat, d ≠ u ∧ d ≠ p ∧ u ≠ p ∧ d + 1 < 22 ∧ u + 1 < 22 ∧ p + 1 < 22 ∧
        (∃ c, ([49, 114, 65, 37, 97, 98, 97, 98, 97, 98, 97, 98, 117, 98, 117, 98, 117, 98,
          117, 116, 114, 97] : List Nat)[d]? = some c ∧ isDigit c) ∧
        (∃ c, ([49, 114, 65, 37, 97, 98, 97, 98, 97, 98, 97, 98, 117, 98, 117, 98, 117, 98,
          117, 116, 114, 97] : List Nat)[u]? = some c ∧ isUpper c) ∧
        (∃ c, ([49, 114, 65, 37, 97, 98, 97, 98, 97, 98, 97, 98, 117, 98, 117, 98, 117, 98,
          117, 116, 114, 97] : List Nat)[p]? = some c ∧ c ∈ punctuation) ∧
        ∀ j, j < 22 → j ≠ d → j ≠ u → j ≠ p →
          ∃ c, ([49, 114, 65, 37, 97, 98, 97, 98, 97, 98, 97, 98, 117, 98, 117, 98, 117, 98,
            117, 116, 114, 97] : List Nat)[j]? = some c ∧ syl[j]? = some c ∧ isLower c :=
  ⟨by decide, GetPassword_three_positions demoLimit demoEntropy 100 St.init 20
    ([49, 114, 65, 37, 97, 98, 97, 98, 97, 98, 97, 98, 117, 98, 117, 98, 117, 98, 117, 116,
      114, 97], none) ⟨⟨demoPool, 15⟩, 1⟩ (by decide) (by decide)⟩

/-! ## The random byte source -/

theorem fill_length (f : Nat → Nat) (len : Nat) : (fill f len).length = len := by
  simp [fill]

theorem fill_get (f : Nat → Nat) (len j : Nat) (hj : j < len) :
    (fill f len)[j]? = some (f j % 256) := by
  simp [fill, List.getElem?_range hj]

theorem stateAfter_pool_length (F : Nat → Nat → Nat) (n : Nat) :
    (stateAfter F n).rng.pool.length = poolSize := by
  unfold stateAfter
  split
  · simp
  · simp [fill_length]

/-- One call of `GetByte` from the state reached after `m` calls. -/
theorem GetByte_stateAfter (E : Entropy) (F : Nat → Nat → Nat) (m : Nat)
    (hE : E (m / poolSize) = some (F (m / poolSize))) :
    GetByte E (stateAfter F m) =
      .ok (F (m / poolSize) (m % poolSize) % 256, stateAfter F (m + 1)) := by
  have hlen := stateAfter_pool_length F m
  by_cases h0 : m % poolSize = 0
  · have hreads : (stateAfter F m).reads = m / poolSize := by
      simp only [stateAfter, poolSize] at h0 ⊢
      omega
    have hi : (stateAfter F m).rng.i = 0 := by
      simp only [stateAfter, h0]; rfl
    have hnext : stateAfter F (m + 1) =
        ⟨⟨fill (F (m / poolSize)) poolSize, 1⟩, m / poolSize + 1⟩ := by
      simp only [stateAfter, poolSize] at h0 ⊢
      have e1 : (m + 1) % 128 = 1 := by omega
      have e2 : (m + 1 + 128 - 1) / 128 = m / 128 + 1 := by omega
      simp [e1, e2]
    rw [hnext]
    simp only [GetByte, hi, if_true, randRead, hreads, hE, hlen, Outcome.bind_ok, sliceGet,
      h0]
    have hg := fill_get (F (m / poolSize)) poolSize 0 (by decide)
    simp only [Int.toNat_zero, lt_self_iff_false, if_false, hg]
    rfl
  · have hm : m ≠ 0 := by
      intro e; subst e; simp at h0
    have hlt : m % poolSize < poolSize := Nat.mod_lt _ (by decide)
    have hi : (stateAfter F m).rng.i = ((m % poolSize : Nat) : Int) := rfl
    have hi0 : ¬ ((stateAfter F m).rng.i = 0) := by
      rw [hi]; omega
    have hpool : (stateAfter F m).rng.pool = fill (F (m / poolSize)) poolSize := by
      simp only [stateAfter, hm, if_false]
      have : (m - 1) / poolSize = m / poolSize := by
        simp only [poolSize] at h0 ⊢
        omega
      rw [this]
    have hnext : stateAfter F (m + 1) =
        ⟨⟨fill (F (m / poolSize)) poolSize, (((m + 1) % poolSize : Nat) : Int)⟩,
          (stateAfter F m).reads⟩ := by
      unfold stateAfter
      have e1 : ¬ (m + 1 = 0) := by omega
      have e2 : (m + 1 - 1) / poolSize = m / poolSize := by simp
      have e3 : (m + 1 + poolSize - 1) / poolSize = (m + poolSize - 1) / poolSize := by
        simp only [poolSize] at h0 ⊢
        omega
      rw [if_neg e1, e2, e3]
    rw [hnext]
    have hi1 : ¬ (((m % poolSize : Nat) : Int) = 0) := by omega
    have hneg : ¬ (((m % poolSize : Nat) : Int) < 0) := by omega
    have hg := fill_get (F (m / poolSize)) poolSize (m % poolSize) hlt
    simp only [GetByte, hi1, if_false, Outcome.bind_ok, sliceGet, hpool, hi, hneg,
      Int.toNat_ofNat, hg]
    have e3 : Int.tmod (((m % poolSize : Nat) : Int) + 1) (poolSize : Int) =
        (((m + 1) % poolSize : Nat) : Int) := by
      have : ((m % poolSize : Nat) : Int) + 1 = ((m % poolSize + 1 : Nat) : Int) := by
        push_cast; rfl
      rw [this, ← Int.ofNat_tmod]
      simp only [poolSize]
      congr 1
      omega
    rw [e3]

theorem stateAfter_zero (F : Nat → Nat → Nat) : stateAfter F 0 = St.init := rfl

/-- The bytes that `n` calls of `GetByte` return from the state reached after `m` calls. -/
theorem drawBytes_stateAfter (E : Entropy) (F : Nat → Nat → Nat) :
    ∀ (n m : Nat), (∀ k, k * poolSize < m + n → E k = some (F k)) →
      drawBytes E n (stateAfter F m) =
        .ok ((List.range' m n).map (fun k => F (k / poolSize) (k % poolSize) % 256),
          stateAfter F (m + n)) := by
  intro n
  induction n with
  | zero => intro m _; rfl
  | succ n ih =>
    intro m hE
    have h1 : E (m / poolSize) = some (F (m / poolSize)) := by
      apply hE
      have := Nat.div_mul_le_self m poolSize
      omega
    have h2 := ih (m + 1) (fun k hk => hE k (by omega))
    simp only [drawBytes, GetByte_stateAfter E F m h1, Outcome.bind_ok, h2, List.range'_succ,
      List.map_cons]
    have : m + 1 + n = m + (n + 1) := by omega
    rw [this]

/-- Entry `k` of a concatenation of blocks of equal length `len`. -/
theorem flatMap_blocks_get (g : Nat → List Nat) (len : Nat)
    (hg : ∀ q, (g q).length = len) :
    ∀ (q k : Nat), k < q * len →
      ((List.range q).flatMap g)[k]? = (g (k / len))[k % len]? := by
  have hsize : ∀ q, ((List.range q).flatMap g).length = q * len := by
    intro q
    induction q with
    | zero => simp
    | succ q ih =>
      rw [List.range_succ, List.flatMap_append, List.length_append, ih, List.flatMap_singleton,
        hg]
      rw [Nat.succ_mul]
  intro q
  induction q with
  | zero => intro k hk; simp at hk
  | succ q ih =>
    intro k hk
    rw [List.range_succ, List.flatMap_append, List.flatMap_singleton]
    by_cases hlt : k < q * len
    · rw [List.getElem?_append_left (by rw [hsize]; exact hlt)]
      exact ih k hlt
    · have hge : q * len ≤ k := by omega
      rw [List.getElem?_append_right (by rw [hsize]; exact hge), hsize]
      have hk2 : k < q * len + len := by rw [Nat.succ_mul] at hk; exact hk
      have e1 : k / len = q := by
        apply Nat.div_eq_of_lt_le
        · exact hge
        · rw [Nat.succ_mul]; exact hk2
      have e2 : k % len = k - q * len := by
        have := Nat.div_add_mod k len
        rw [e1, Nat.mul_comm] at this
        omega
      rw [e1, e2]

/-- C5: starting from `NewRNG`, as long as the reads of the underlying source
succeed, call number `k` of `GetByte` returns a value below 256 that is the byte
at offset `k mod 128` of fill number `k div 128`; the `n` values returned by the
first `n` calls are the first `n` bytes of the concatenation of the fills. -/
theorem GetByte_delivers_fills (E : Entropy) (F : Nat → Nat → Nat) (n : Nat)
    (hE : ∀ k, k * poolSize < n → E k = some (F k)) :
    ∃ bs s, drawBytes E n St.init = .ok (bs, s) ∧ bs.length = n ∧
      (∀ k, k < n → ∃ b, bs[k]? = some b ∧ b < 256 ∧
        (fill (F (k / poolSize)) poolSize)[k % poolSize]? = some b) ∧
      bs = (((List.range ((n + poolSize - 1) / poolSize)).flatMap
        fun q => fill (F q) poolSize).take n) := by
  have hd := drawBytes_stateAfter E F n 0 (by simpa using hE)
  rw [stateAfter_zero, ← List.range_eq_range'] at hd
  have hget : ∀ k, k < n →
      ((List.range n).map (fun k => F (k / poolSize) (k % poolSize) % 256))[k]? =
        some (F (k / poolSize) (k % poolSize) % 256) := by
    intro k hk
    simp [List.getElem?_range hk]
  have hfill : ∀ k, (fill (F (k / poolSize)) poolSize)[k % poolSize]? =
      some (F (k / poolSize) (k % poolSize) % 256) :=
    fun k => fill_get _ _ _ (Nat.mod_lt _ (by decide))
  refine ⟨_, _, hd, by simp, ?_, ?_⟩
  · intro k hk
    exact ⟨_, hget k hk, Nat.mod_lt _ (by decide), hfill k⟩
  · apply List.ext_getElem?
    intro k
    by_cases hk : k < n
    · rw [hget k hk, List.getElem?_take_of_lt hk,
        flatMap_blocks_get (fun q => fill (F q) poolSize) poolSize (fun q => fill_length _ _)
          _ k (by simp only [poolSize] at hk ⊢; omega)]
      exact (hfill k).symm
    · rw [List.getElem?_eq_none (by simp; omega), List.getElem?_eq_none]
      rw [List.length_take]
      omega

theorem GetByte_delivers_fills_witness :
    (∀ k, k * poolSize < 130 → demoEntropy k = some (demoFill k)) ∧
    ∃ bs s, drawBytes demoEntropy 130 St.init = .ok (bs, s) ∧ bs.length = 130 ∧
      (∀ k, k < 130 → ∃ b, bs[k]? = some b ∧ b < 256 ∧
        (fill (demoFill (k / poolSize)) poolSize)[k % poolSize]? = some b) ∧
      bs = (((List.range ((130 + poolSize - 1) / poolSize)).flatMap
        fun q => fill (demoFill q) poolSize).take 130) :=
  ⟨fun _ _ => rfl, GetByte_delivers_fills demoEntropy demoFill 130 (fun _ _ => rfl)⟩

/-- C6: starting from `NewRNG`, with reads that succeed, the first `n` calls of
`GetByte` make `ceil(n / 128)` reads, and the call with 0-based number `n` makes
a read (which replaces the whole pool by the next fill) exactly when `n` is
divisible by `poolSize`; any other call leaves the pool as it is. -/
theorem GetByte_refills (E : Entropy) (F : Nat → Nat → Nat) (n : Nat)
    (hE : ∀ k, k * poolSize < n + 1 → E k = some (F k)) :
    ∃ bs s b s1, drawBytes E n St.init = .ok (bs, s) ∧ GetByte E s = .ok (b, s1) ∧
      s.reads = (n + poolSize - 1) / poolSize ∧
      (s1.reads = s.reads + 1 ↔ n % poolSize = 0) ∧
      (s1.reads = s.reads ∨ s1.reads = s.reads + 1) ∧
      (n % poolSize = 0 → s1.rng.pool = fill (F (n / poolSize)) poolSize) ∧
      (n % poolSize ≠ 0 → s1.rng.pool = s.rng.pool) := by
  have hd := drawBytes_stateAfter E F n 0 (fun k hk => hE k (by omega))
  rw [stateAfter_zero, Nat.zero_add] at hd
  have hg := GetByte_stateAfter E F n (hE _ (by
    have := Nat.div_mul_le_self n poolSize
    omega))
  refine ⟨_, _, _, _, hd, hg, rfl, ?_, ?_, ?_, ?_⟩
  · simp only [stateAfter, poolSize]; omega
  · simp only [stateAfter, poolSize]; omega
  · intro h0
    simp only [stateAfter]
    have e1 : ¬ (n + 1 = 0) := by omega
    rw [if_neg e1]
    simp
  · intro h0
    have hn : ¬ (n = 0) := by
      intro e; subst e; simp at h0
    have e1 : ¬ (n + 1 = 0) := by omega
    have e2 : (n + 1 - 1) / poolSize = (n - 1) / poolSize := by
      simp only [poolSize] at h0 ⊢
      omega
    simp only [stateAfter, if_neg e1, if_neg hn, e2]

theorem GetByte_refills_witness :
    (∀ k, k * poolSize < 128 + 1 → demoEntropy k = some (demoFill k)) ∧
    ∃ bs s b s1, drawBytes demoEntropy 128 St.init = .ok (bs, s) ∧
      GetByte demoEntropy s = .ok (b, s1) ∧
      s.reads = (128 + poolSize - 1) / poolSize ∧
      (s1.reads = s.reads + 1 ↔ 128 % poolSize = 0) ∧
      (s1.reads = s.reads ∨ s1.reads = s.reads + 1) ∧
      (128 % poolSize = 0 → s1.rng.pool = fill (demoFill (128 / poolSize)) poolSize) ∧
      (128 % poolSize ≠ 0 → s1.rng.pool = s.rng.pool) :=
  ⟨fun _ _ => rfl, GetByte_refills demoEntropy demoFill 128 (fun _ _ => rfl)⟩

/-! ## Absence of panics and returning runs -/

theorem Outcome.safe_bind {α β : Type} (P : α → Prop) (Q : β → Prop) (x : Outcome α)
    (f : α → Outcome β) (hx : x.safe P)
    (hf : ∀ a, x = .ok a → P a → (f a).safe Q) : (x.bind f).safe Q := by
  cases x with
  | ok a => exact hf a rfl hx
  | exit => trivial
  | panic => exact hx
  | outOfFuel => trivial

theorem Outcome.safe_mono {α : Type} (P Q : α → Prop) (x : Outcome α) (hx : x.safe P)
    (h : ∀ a, x = .ok a → P a → Q a) : x.safe Q := by
  cases x with
  | ok a => exact h a rfl hx
  | exit => trivial
  | panic => exact hx
  | outOfFuel => trivial

theorem Outcome.safe_ne_panic {α : Type} (P : α → Prop) (x : Outcome α) (hx : x.safe P) :
    x ≠ .panic := by
  intro e
  rw [e] at hx
  exact hx

/-- From a state that satisfies the invariant, `GetByte` exits on a failed read
or returns a byte and a state that satisfies the invariant. -/
theorem GetByte_cases (E : Entropy) (s : St) (h : s.wf) :
    (E s.reads = none ∧ s.rng.i = 0 ∧ GetByte E s = .exit) ∨
    (∃ b s1, GetByte E s = .ok (b, s1) ∧ s1.wf) := by
  obtain ⟨hlen, h0, hlt⟩ := h
  by_cases hi : s.rng.i = 0
  · cases hE : E s.reads with
    | none =>
      left
      refine ⟨rfl, hi, ?_⟩
      simp [GetByte, hi, randRead, hE, Outcome.bind]
    | some f =>
      right
      have hg := fill_get f poolSize 0 (by decide)
      refine ⟨f 0 % 256, ⟨⟨fill f poolSize, 1⟩, s.reads + 1⟩, ?_, ?_⟩
      · simp only [GetByte, hi, if_true, randRead, hE, hlen, Outcome.bind_ok, sliceGet,
          Int.toNat_zero, lt_self_iff_false, if_false, hg]
        rfl
      · refine ⟨fill_length _ _, ?_, ?_⟩
        · show (0 : Int) ≤ 1
          decide
        · show (1 : Int) < (poolSize : Int)
          decide
  · right
    have hj : s.rng.i.toNat < s.rng.pool.length := by
      rw [hlen]; simp only [poolSize] at hlt ⊢; omega
    have hneg : ¬ (s.rng.i < 0) := by omega
    refine ⟨s.rng.pool[s.rng.i.toNat], ⟨⟨s.rng.pool, Int.tmod (s.rng.i + 1) poolSize⟩, s.reads⟩,
      ?_, ?_⟩
    · simp only [GetByte, hi, if_false, Outcome.bind_ok, sliceGet, hneg,
        List.getElem?_eq_getElem hj]
    · refine ⟨hlen, ?_, ?_⟩
      · show 0 ≤ Int.tmod (s.rng.i + 1) poolSize
        rw [Int.tmod_eq_emod (by omega) (by decide)]
        simp only [poolSize]; omega
      · show Int.tmod (s.rng.i + 1) poolSize < poolSize
        rw [Int.tmod_eq_emod (by omega) (by decide)]
        simp only [poolSize]; omega

theorem GetByte_safe (E : Entropy) (s : St) (h : s.wf) :
    (GetByte E s).safe (fun r => r.2.wf) := by
  rcases GetByte_cases E s h with ⟨_, _, e⟩ | ⟨b, s1, e, hw⟩
  · rw [e]; trivial
  · rw [e]; exact hw

theorem GetByte_total (E : Entropy) (s : St) (h : s.wf) (hE : ∀ k, E k ≠ none) :
    ∃ b s1, GetByte E s = .ok (b, s1) ∧ s1.wf := by
  rcases GetByte_cases E s h with ⟨e, _, _⟩ | h
  · exact absurd e (hE _)
  · exact h

theorem sylLoop_safe (E : Entropy) (pwlen : Int) :
    ∀ (fuel : Nat) (pw : List Nat) (s : St), s.wf →
      (sylLoop E pwlen fuel pw s).safe (fun r => r.2.wf) := by
  intro fuel
  induction fuel with
  | zero =>
    intro pw s hw
    rw [sylLoop_zero]
    split
    · trivial
    · exact hw
  | succ fuel ih =>
    intro pw s hw
    rw [sylLoop_succ]
    split
    · apply Outcome.safe_bind _ _ _ _ (GetByte_safe E s hw)
      intro r _ hr
      simp only [(token_facts r.1).1]
      exact ih _ _ hr
    · exact hw

/-- The syllable loop returns when the reads succeed and the fuel covers the
missing length: every iteration appends at least two bytes. -/
theorem sylLoop_total (E : Entropy) (pwlen : Int) (hE : ∀ k, E k ≠ none) :
    ∀ (fuel : Nat) (pw : List Nat) (s : St), s.wf → pwlen ≤ (pw.length : Int) + fuel →
      ∃ pw1 s1, sylLoop E pwlen fuel pw s = .ok (pw1, s1) ∧ s1.wf := by
  intro fuel
  induction fuel with
  | zero =>
    intro pw s hw hf
    rw [sylLoop_zero]
    have : ¬ ((pw.length : Int) < pwlen) := by omega
    rw [if_neg this]
    exact ⟨pw, s, rfl, hw⟩
  | succ fuel ih =>
    intro pw s hw hf
    rw [sylLoop_succ]
    split
    · obtain ⟨b, s1, hb, hw1⟩ := GetByte_total E s hw hE
      simp only [hb, Outcome.bind_ok, (token_facts b).1]
      apply ih _ _ hw1
      have ht := (token_facts b).2.1
      unfold token at ht
      rw [List.length_append]
      push_cast at hf ⊢
      omega
    · exact ⟨pw, s, rfl, hw⟩

theorem sliceSet_in_range (xs : List Nat) (i : Int) (v : Nat) (h0 : 0 ≤ i)
    (h1 : i < (xs.length : Int)) : sliceSet xs i v = some (xs.set i.toNat v) := by
  rw [sliceSet_eq_some]
  exact ⟨h0, h1, rfl⟩

theorem sliceGet_in_range (xs : List Nat) (i : Int) (h0 : 0 ≤ i)
    (h1 : i < (xs.length : Int)) : ∃ c, sliceGet xs i = some c := by
  have hj : i.toNat < xs.length := by omega
  refine ⟨xs[i.toNat], ?_⟩
  rw [sliceGet_eq_some]
  exact ⟨h0, List.getElem?_eq_getElem hj⟩

theorem pickIndex_safe (E : Entropy) (len : Nat) (accept : Int → Bool) (hL : 2 ≤ len) :
    ∀ (fuel : Nat) (s : St), s.wf →
      (pickIndex E len accept fuel s).safe
        (fun r => r.2.wf ∧ 0 ≤ r.1 ∧ r.1 + 1 < (len : Int)) := by
  intro fuel
  induction fuel with
  | zero => intro s _; trivial
  | succ fuel ih =>
    intro s hw
    unfold pickIndex
    apply Outcome.safe_bind _ _ _ _ (GetByte_safe E s hw)
    intro r _ hr
    rw [goMod_nat r.1 len hL]
    have hb : r.1 % (len - 1) < len - 1 := Nat.mod_lt _ (by omega)
    dsimp only
    split
    · exact ⟨hr, by omega, by omega⟩
    · exact ih _ hr

theorem digitStep_safe (E : Entropy) (digit : Bool) (pwb : List Nat) (s : St)
    (hL : 2 ≤ pwb.length) (hw : s.wf) :
    (digitStep E digit pwb s).safe (fun r => r.2.wf ∧ r.1.1.length = pwb.length) := by
  unfold digitStep
  split
  · apply Outcome.safe_bind _ _ _ _ (GetByte_safe E s hw)
    intro r1 _ hr1
    rw [goMod_nat r1.1 pwb.length hL]
    have hb : r1.1 % (pwb.length - 1) < pwb.length - 1 := Nat.mod_lt _ (by omega)
    dsimp only
    apply Outcome.safe_bind _ _ _ _ (GetByte_safe E r1.2 hr1)
    intro r2 _ hr2
    dsimp only
    rw [sliceSet_in_range _ _ _ (by omega) (by omega)]
    exact ⟨hr2, by simp⟩
  · exact ⟨hw, rfl⟩

theorem upperStep_safe (E : Entropy) (fuel : Nat) (upper : Bool) (di : Int) (pwb : List Nat)
    (s : St) (hL : 2 ≤ pwb.length) (hw : s.wf) :
    (upperStep E fuel upper di pwb s).safe (fun r => r.2.wf ∧ r.1.1.length = pwb.length) := by
  unfold upperStep
  split
  · apply Outcome.safe_bind _ _ _ _ (pickIndex_safe E pwb.length _ hL fuel s hw)
    intro r _ hr
    obtain ⟨c, hc⟩ := sliceGet_in_range pwb r.1 hr.2.1 (by omega)
    rw [hc]
    dsimp only
    rw [sliceSet_in_range _ _ _ hr.2.1 (by omega)]
    exact ⟨hr.1, by simp⟩
  · exact ⟨hw, rfl⟩

theorem punctuation_index (b : Nat) :
    ∃ pc, punctuation[b &&& (punctuation.length - 1)]? = some pc := by
  have h : b &&& (punctuation.length - 1) ≤ punctuation.length - 1 := Nat.and_le_right
  have hj : b &&& (punctuation.length - 1) < punctuation.length := by
    have : punctuation.length = 30 := rfl
    omega
  exact ⟨_, List.getElem?_eq_getElem hj⟩

theorem punctStep_safe (E : Entropy) (fuel : Nat) (punct : Bool) (di ui : Int)
    (pwb : List Nat) (s : St) (hL : 2 ≤ pwb.length) (hw : s.wf) :
    (punctStep E fuel punct di ui pwb s).safe (fun r => r.2.wf ∧ r.1.length = pwb.length) := by
  unfold punctStep
  split
  · apply Outcome.safe_bind _ _ _ _ (pickIndex_safe E pwb.length _ hL fuel s hw)
    intro r _ hr
    apply Outcome.safe_bind _ _ _ _ (GetByte_safe E r.2 hr.1)
    intro r2 _ hr2
    obtain ⟨pc, hpc⟩ := punctuation_index r2.1
    dsimp only
    rw [hpc]
    dsimp only
    rw [sliceSet_in_range _ _ _ hr.2.1 (by omega)]
    exact ⟨hr2, by simp⟩
  · exact ⟨hw, rfl⟩

theorem wrapInt_nonneg (x : Int) (h0 : 0 ≤ x) (h1 : x < 2 ^ 63) : ¬ wrapInt x < 0 := by
  unfold wrapInt
  omega

/-- A count that is not negative, fits an `int` and can be allocated makes
`pw.Grow` return. -/
theorem grow_ok (lim : Nat) (x : Int) (h0 : 0 ≤ x) (h1 : x < 2 ^ 63) (h2 : x ≤ (lim : Int)) :
    ¬ growPanics lim (wrapInt x) := by
  have e : wrapInt x = x := by
    unfold wrapInt
    omega
  rw [e]
  unfold growPanics
  omega

/-- From a state that satisfies the invariant and for a target `pwlen ≥ 1` whose
`pwlen + 2` is still an `int` and can be allocated, `GetPassword` does not panic,
and the state it leaves satisfies the invariant. -/
theorem GetPassword_safe (lim : Nat) (E : Entropy) (fuel : Nat) (digit upper punct : Bool)
    (s : St) (pwlen : Int) (hw : s.wf) (hlen : 1 ≤ pwlen) (hmax : pwlen + 2 < 2 ^ 63)
    (halloc : pwlen + 2 ≤ (lim : Int)) :
    (GetPassword lim E fuel digit upper punct s pwlen).safe (fun r => r.2.wf) := by
  unfold GetPassword
  rw [if_neg (grow_ok lim _ (by omega) hmax halloc)]
  apply Outcome.safe_bind _ _ _ _ (sylLoop_safe E pwlen fuel [] s hw)
  intro r0 e0 hr0
  have hL : 2 ≤ r0.1.length := (sylLoop_len E pwlen fuel s r0.2 r0.1 e0 hlen).2.2.1
  apply Outcome.safe_bind _ _ _ _ (digitStep_safe E digit r0.1 r0.2 hL hr0)
  intro r1 _ hr1
  apply Outcome.safe_bind _ _ _ _
    (upperStep_safe E fuel upper r1.1.2 r1.1.1 r1.2 (by omega) hr1.1)
  intro r2 _ hr2
  apply Outcome.safe_bind _ _ _ _
    (punctStep_safe E fuel punct r1.1.2 r2.1.2 r2.1.1 r2.2 (by omega) hr2.1)
  intro r3 _ hr3
  exact hr3.1

/-! ## Degenerate targets -/

theorem sylLoop_nonpos_eq (E : Entropy) (pwlen : Int) (fuel : Nat) (s : St)
    (hlen : pwlen ≤ 0) : sylLoop E pwlen fuel [] s = .ok ([], s) := by
  have hn : ¬ ((([] : List Nat).length : Int) < pwlen) := by simp; omega
  cases fuel with
  | zero => rw [sylLoop_zero, if_neg hn]
  | succ fuel => rw [sylLoop_succ, if_neg hn]

/-! ## Digit only, and no flag -/

theorem digitStep_eval (E : Entropy) (pwb : List Nat) (s s0 s2 : St) (b1 b2 : Nat)
    (h1 : GetByte E s = .ok (b1, s0)) (h2 : GetByte E s0 = .ok (b2, s2))
    (hL : 2 ≤ pwb.length) :
    digitStep E true pwb s =
      .ok ((pwb.set (b1 % (pwb.length - 1)) (48 + (b2 &&& 9)),
        ((b1 % (pwb.length - 1) : Nat) : Int)), s2) := by
  have hb : b1 % (pwb.length - 1) < pwb.length - 1 := Nat.mod_lt _ (by omega)
  unfold digitStep
  simp only [if_true, h1, Outcome.bind_ok, goMod_nat b1 pwb.length hL, h2,
    (digit_value b2).2]
  rw [sliceSet_in_range _ _ _ (by omega) (by omega)]
  simp only [Int.toNat_ofNat]

/-- C9: with only the digit flag set and a target `pwlen ≥ 1`, a returned
password has the length `L` of the syllable concatenation and differs from it
at exactly the position `b1 mod (L - 1)`, which is at most `L - 2` and holds the
digit `'0' + (b2 AND 9)`, where `b1`, `b2` are the two bytes drawn right after the
syllable phase; every other position, `L - 1` included, is unchanged. Started on
a state that satisfies the invariant, with reads that succeed, `pwlen + 2` an
`int` that `pw.Grow` can allocate and fuel for `pwlen` iterations, `GetPassword`
does return. -/
theorem GetPassword_digit_only (lim : Nat) (E : Entropy) (fuel : Nat) (s : St) (pwlen : Int)
    (hlen : 1 ≤ pwlen) :
    (∀ r s3, GetPassword lim E fuel true false false s pwlen = .ok (r, s3) →
      ∃ syl s1 b1 s2 b2, sylLoop E pwlen fuel [] s = .ok (syl, s1) ∧
        GetByte E s1 = .ok (b1, s2) ∧ GetByte E s2 = .ok (b2, s3) ∧
        r.1.length = syl.length ∧ 2 ≤ syl.length ∧
        b1 % (syl.length - 1) ≤ syl.length - 2 ∧
        r.1[b1 % (syl.length - 1)]? = some (48 + (b2 &&& 9)) ∧
        isDigit (48 + (b2 &&& 9)) ∧
        (∀ j, j < syl.length → (r.1[j]? ≠ syl[j]? ↔ j = b1 % (syl.length - 1))) ∧
        r.1[syl.length - 1]? = syl[syl.length - 1]?) ∧
    (s.wf → (∀ k, E k ≠ none) → pwlen + 2 < 2 ^ 63 → pwlen + 2 ≤ (lim : Int) →
      pwlen ≤ (fuel : Int) →
      ∃ r s3, GetPassword lim E fuel true false false s pwlen = .ok (r, s3)) := by
  constructor
  · intro r s4 h
    obtain ⟨_, syl, s1, pwb1, di, s2, pwb2, ui, s3, h0, h1, h2, h3, _⟩ :=
      GetPassword_ok lim E fuel true false false s pwlen r s4 h
    obtain ⟨_, _, hL, hlow⟩ := sylLoop_len E pwlen fuel s s1 syl h0 hlen
    rcases digitStep_ok E true syl s1 pwb1 di s2 h1 with
      ⟨hd, _⟩ | ⟨_, b1, s0, b2, hg1, hg2, hm, _, _, hp⟩
    · cases hd
    rcases upperStep_ok E fuel false di pwb1 s2 pwb2 ui s3 h2 with
      ⟨_, hp2, _, hs3⟩ | ⟨hu, _⟩
    swap
    · cases hu
    rcases punctStep_ok E fuel false di ui pwb2 s3 r.1 s4 h3 with ⟨_, hp3, hs4⟩ | ⟨hu, _⟩
    swap
    · cases hu
    rw [goMod_nat b1 syl.length hL] at hm
    injection hm with hm
    subst hm hs3 hs4
    rw [(digit_value b2).2, Int.toNat_ofNat] at hp
    subst hp hp2
    have hb : b1 % (syl.length - 1) < syl.length - 1 := Nat.mod_lt _ (by omega)
    have hd : (syl.set (b1 % (syl.length - 1)) (48 + (b2 &&& 9)))[b1 % (syl.length - 1)]? =
        some (48 + (b2 &&& 9)) := List.getElem?_set_self (by omega)
    refine ⟨syl, s1, b1, s0, b2, h0, hg1, hg2, ?_, hL, by omega, ?_, (digit_value b2).1,
      ?_, ?_⟩
    · rw [hp3]; simp
    · rw [hp3]; exact hd
    · intro j hj
      rw [hp3]
      constructor
      · intro hne
        by_contra hjd
        exact hne (List.getElem?_set_ne (fun e => hjd e.symm))
      · intro e
        subst e
        rw [hd, List.getElem?_eq_getElem hj]
        intro e2
        injection e2 with e2
        have hc := hlow _ (List.getElem_mem hj)
        have hv := (digit_value b2).1
        unfold isLower at hc
        unfold isDigit at hv
        omega
    · rw [hp3]
      exact List.getElem?_set_ne (by omega)
  · intro hw hE hmax halloc hfuel
    obtain ⟨syl, s1, h0, hw1⟩ := sylLoop_total E pwlen hE fuel [] s hw (by simpa using hfuel)
    obtain ⟨_, _, hL, _⟩ := sylLoop_len E pwlen fuel s s1 syl h0 hlen
    obtain ⟨b1, s2, hg1, hw2⟩ := GetByte_total E s1 hw1 hE
    obtain ⟨b2, s3, hg2, _⟩ := GetByte_total E s2 hw2 hE
    refine ⟨(syl.set (b1 % (syl.length - 1)) (48 + (b2 &&& 9)), none), s3, ?_⟩
    unfold GetPassword
    rw [if_neg (grow_ok lim _ (by omega) hmax halloc), h0]
    simp only [Outcome.bind_ok, digitStep_eval E syl s1 s2 s3 b1 b2 hg1 hg2 hL]
    rfl

/-- C10: with no flag set and a target `pwlen ≥ 1`, what `GetPassword` returns is
the concatenation, in draw order, of the syllables selected by the bytes drawn,
where before each draw the accumulated length was below `pwlen` and after the
last it is at least `pwlen`; it consists of lowercase letters only. Started on a
state that satisfies the invariant, with reads that succeed, `pwlen + 2` an
`int` that `pw.Grow` can allocate and fuel for `pwlen` iterations, `GetPassword`
does return. -/
theorem GetPassword_no_flag (lim : Nat) (E : Entropy) (fuel : Nat) (s : St) (pwlen : Int)
    (hlen : 1 ≤ pwlen) :
    (∀ r s1, GetPassword lim E fuel false false false s pwlen = .ok (r, s1) →
      ∃ bs, drawBytes E bs.length s = .ok (bs, s1) ∧ r = (sylConcat bs, none) ∧
        pwlen ≤ ((sylConcat bs).length : Int) ∧
        (∀ k, k < bs.length → ((sylConcat (bs.take k)).length : Int) < pwlen) ∧
        ∀ c ∈ r.1, isLower c) ∧
    (s.wf → (∀ k, E k ≠ none) → pwlen + 2 < 2 ^ 63 → pwlen + 2 ≤ (lim : Int) →
      pwlen ≤ (fuel : Int) →
      ∃ r s1, GetPassword lim E fuel false false false s pwlen = .ok (r, s1)) := by
  constructor
  · intro r s4 h
    obtain ⟨_, syl, s1, pwb1, di, s2, pwb2, ui, s3, h0, h1, h2, h3, herr⟩ :=
      GetPassword_ok lim E fuel false false false s pwlen r s4 h
    rcases digitStep_ok E false syl s1 pwb1 di s2 h1 with ⟨_, hp1, _, hs2⟩ | ⟨hd, _⟩
    swap
    · cases hd
    rcases upperStep_ok E fuel false di pwb1 s2 pwb2 ui s3 h2 with
      ⟨_, hp2, _, hs3⟩ | ⟨hu, _⟩
    swap
    · cases hu
    rcases punctStep_ok E fuel false di ui pwb2 s3 r.1 s4 h3 with ⟨_, hp3, hs4⟩ | ⟨hu, _⟩
    swap
    · cases hu
    subst hs2 hs3 hs4 hp1 hp2
    obtain ⟨bs, hd, hpw, hge, hbefore⟩ := sylLoop_ok E pwlen fuel [] s pwb2 s4 h0
    simp only [List.nil_append] at hpw hbefore
    subst hpw
    refine ⟨bs, hd, Prod.ext hp3 herr, hge, hbefore, ?_⟩
    rw [hp3]
    exact sylConcat_lower bs
  · intro hw hE hmax halloc hfuel
    obtain ⟨syl, s1, h0, _⟩ := sylLoop_total E pwlen hE fuel [] s hw (by simpa using hfuel)
    refine ⟨(syl, none), s1, ?_⟩
    unfold GetPassword
    rw [if_neg (grow_ok lim _ (by omega) hmax halloc), h0]
    rfl

set_option maxRecDepth 100000 in
theorem GetPassword_digit_only_witness :
    ((1 : Int) ≤ 8) ∧
    (∃ syl s1 b1 s2 b2, sylLoop demoEntropy 8 100 [] St.init = .ok (syl, s1) ∧
      GetByte demoEntropy s1 = .ok (b1, s2) ∧
      GetByte demoEntropy s2 = .ok (b2, ⟨⟨demoPool, 6⟩, 1⟩) ∧
      ([116, 114, 97, 48, 97, 98, 97, 98, 97] : List Nat).length = syl.length ∧
      2 ≤ syl.length ∧
      b1 % (syl.length - 1) ≤ syl.length - 2 ∧
      ([116, 114, 97, 48, 97, 98, 97, 98, 97] : List Nat)[b1 % (syl.length - 1)]? =
        some (48 + (b2 &&& 9)) ∧
      isDigit (48 + (b2 &&& 9)) ∧
      (∀ j, j < syl.length →
        (([116, 114, 97, 48, 97, 98, 97, 98, 97] : List Nat)[j]? ≠ syl[j]? ↔
          j = b1 % (syl.length - 1))) ∧
      ([116, 114, 97, 48, 97, 98, 97, 98, 97] : List Nat)[syl.length - 1]? =
        syl[syl.length - 1]?) ∧
    (∃ r s3, GetPassword demoLimit demoEntropy 100 true false false St.init 8 = .ok (r, s3)) :=
  ⟨by decide,
    (GetPassword_digit_only demoLimit demoEntropy 100 St.init 8 (by decide)).1
      ([116, 114, 97, 48, 97, 98, 97, 98, 97], none) ⟨⟨demoPool, 6⟩, 1⟩ (by decide),
    (GetPassword_digit_only demoLimit demoEntropy 100 St.init 8 (by decide)).2 (by decide)
      (fun k => by simp [demoEntropy, cyc]) (by decide) (by decide) (by decide)⟩

set_option maxRecDepth 100000 in
theorem GetPassword_no_flag_witness :
    ((1 : Int) ≤ 15) ∧
    (∃ bs, drawBytes demoEntropy bs.length St.init = .ok (bs, ⟨⟨demoPool, 7⟩, 1⟩) ∧
      (([116, 114, 97, 98, 97, 98, 97, 98, 97, 98, 97, 98, 117, 98, 117], none) :
        List Nat × Option String) = (sylConcat bs, none) ∧
      (15 : Int) ≤ ((sylConcat bs).length : Int) ∧
      (∀ k, k < bs.length → ((sylConcat (bs.take k)).length : Int) < 15) ∧
      ∀ c ∈ ([116, 114, 97, 98, 97, 98, 97, 98, 97, 98, 97, 98, 117, 98, 117] : List Nat),
        isLower c) ∧
    (∃ r s1, GetPassword demoLimit demoEntropy 100 false false false St.init 15 = .ok (r, s1)) :=
  ⟨by decide,
    (GetPassword_no_flag demoLimit demoEntropy 100 St.init 15 (by decide)).1
      ([116, 114, 97, 98, 97, 98, 97, 98, 97, 98, 97, 98, 117, 98, 117], none)
      ⟨⟨demoPool, 7⟩, 1⟩ (by decide),
    (GetPassword_no_flag demoLimit demoEntropy 100 St.init 15 (by decide)).2 (by decide)
      (fun k => by simp [demoEntropy, cyc]) (by decide) (by decide) (by decide)⟩

/-! ## The last byte, and the invariant of the byte source -/

/-- C11: for a target `pwlen ≥ 1`, any flags and any random source, the last byte
of a returned password (index `L - 1`) is the last byte of the syllable
concatenation built by the first loop: no injection overwrites it. -/
theorem GetPassword_last_byte (lim : Nat) (E : Entropy) (fuel : Nat) (digit upper punct : Bool)
    (s : St) (pwlen : Int) (r : List Nat × Option String) (s4 : St) (hlen : 1 ≤ pwlen)
    (h : GetPassword lim E fuel digit upper punct s pwlen = .ok (r, s4)) :
    ∃ syl s1, sylLoop E pwlen fuel [] s = .ok (syl, s1) ∧ r.1.length = syl.length ∧
      0 < syl.length ∧ r.1[r.1.length - 1]? = syl[syl.length - 1]? ∧
      r.1.getLast? = syl.getLast? := by
  obtain ⟨syl, s1, di, ui, pi, dv, pc, h0, hl, _, hdi, hui, hpi, _, _, hget⟩ :=
    GetPassword_anatomy lim E fuel digit upper punct s pwlen r s4 h hlen
  obtain ⟨_, _, hL, _⟩ := sylLoop_len E pwlen fuel s s1 syl h0 hlen
  have hj : syl.length - 1 < syl.length := by omega
  have hg := hget (syl.length - 1) _ (List.getElem?_eq_getElem hj)
  have n1 : ¬ (((syl.length - 1 : Nat) : Int) = pi) := by
    cases punct
    · simp only [Bool.false_eq_true, if_false] at hpi; omega
    · simp only [if_true] at hpi; omega
  have n2 : ¬ (((syl.length - 1 : Nat) : Int) = ui) := by
    cases upper
    · simp only [Bool.false_eq_true, if_false] at hui; omega
    · simp only [if_true] at hui; omega
  have n3 : ¬ (((syl.length - 1 : Nat) : Int) = di) := by
    cases digit
    · simp only [Bool.false_eq_true, if_false] at hdi; omega
    · simp only [if_true] at hdi; omega
  simp only [n1, n2, n3, if_false] at hg
  have e : r.1[r.1.length - 1]? = syl[syl.length - 1]? := by
    rw [hl, hg, List.getElem?_eq_getElem hj]
  refine ⟨syl, s1, h0, hl, by omega, e, ?_⟩
  rw [List.getLast?_eq_getElem?, List.getLast?_eq_getElem?]
  exact e

set_option maxRecDepth 100000 in
theorem GetPassword_last_byte_witness :
    ((1 : Int) ≤ 8 ∧
      GetPassword demoLimit demoEntropy 100 true true true St.init 8 =
        .ok (([116, 114, 97, 48, 97, 66, 38, 98, 97], none), ⟨⟨demoPool, 9⟩, 1⟩)) ∧
    ∃ syl s1, sylLoop demoEntropy 8 100 [] St.init = .ok (syl, s1) ∧
      ([116, 114, 97, 48, 97, 66, 38, 98, 97] : List Nat).length = syl.length ∧
      0 < syl.length ∧
      ([116, 114, 97, 48, 97, 66, 38, 98, 97] : List Nat)[
        ([116, 114, 97, 48, 97, 66, 38, 98, 97] : List Nat).length - 1]? =
          syl[syl.length - 1]? ∧
      ([116, 114, 97, 48, 97, 66, 38, 98, 97] : List Nat).getLast? = syl.getLast? :=
  ⟨by decide, GetPassword_last_byte demoLimit demoEntropy 100 true true true St.init 8
    ([116, 114, 97, 48, 97, 66, 38, 98, 97], none) ⟨⟨demoPool, 9⟩, 1⟩ (by decide) (by decide)⟩

theorem drawBytes_safe (E : Entropy) :
    ∀ (n : Nat) (s : St), s.wf → (drawBytes E n s).safe (fun r => r.2.wf) := by
  intro n
  induction n with
  | zero => intro s hw; exact hw
  | succ n ih =>
    intro s hw
    unfold drawBytes
    apply Outcome.safe_bind _ _ _ _ (GetByte_safe E s hw)
    intro r _ hr
    apply Outcome.safe_bind _ _ _ _ (ih r.2 hr)
    intro q _ hq
    exact hq

theorem init_wf : St.init.wf := by
  refine ⟨?_, ?_, ?_⟩
  · simp [St.init, NewRNG]
  · show (0 : Int) ≤ 0
    decide
  · show (0 : Int) < (poolSize : Int)
    decide

/-- C18: the invariant `0 ≤ i < poolSize` and `len(pool) = poolSize` holds after
`NewRNG`, and a call of `GetByte` on a state that satisfies it does not panic
(the read `pool[i]` is in range) and leaves a state that satisfies it; so every
state reached from `NewRNG` by calls of `GetByte` satisfies it. -/
theorem RNG_invariant (E : Entropy) (s : St) (hw : s.wf) :
    St.init.wf ∧ GetByte E s ≠ .panic ∧
    (∀ b s1, GetByte E s = .ok (b, s1) → s1.wf) ∧
    (∃ c, sliceGet s.rng.pool s.rng.i = some c) ∧
    ∀ n, drawBytes E n St.init ≠ .panic ∧
      ∀ bs s1, drawBytes E n St.init = .ok (bs, s1) → s1.wf := by
  have hs := GetByte_safe E s hw
  refine ⟨init_wf, Outcome.safe_ne_panic _ _ hs, ?_, ?_, ?_⟩
  · intro b s1 e
    rw [e] at hs
    exact hs
  · obtain ⟨hlen, h0, hlt⟩ := hw
    exact sliceGet_in_range _ _ h0 (by rw [hlen]; exact hlt)
  · intro n
    have hd := drawBytes_safe E n St.init init_wf
    refine ⟨Outcome.safe_ne_panic _ _ hd, ?_⟩
    intro bs s1 e
    rw [e] at hd
    exact hd

set_option maxRecDepth 100000 in
theorem RNG_invariant_witness :
    St.init.wf ∧
    (St.init.wf ∧ GetByte demoEntropy St.init ≠ .panic ∧
    (∀ b s1, GetByte demoEntropy St.init = .ok (b, s1) → s1.wf) ∧
    (∃ c, sliceGet St.init.rng.pool St.init.rng.i = some c) ∧
    ∀ n, drawBytes demoEntropy n St.init ≠ .panic ∧
      ∀ bs s1, drawBytes demoEntropy n St.init = .ok (bs, s1) → s1.wf) :=
  ⟨by decide, RNG_invariant demoEntropy St.init (by decide)⟩

/-! ## The masks -/

theorem not_two_pow (n k0 : Nat) (h1 : 2 ^ k0 < n) (h2 : n < 2 ^ (k0 + 1)) :
    ¬ ∃ k, 2 ^ k = n := by
  rintro ⟨k, hk⟩
  by_cases hle : k ≤ k0
  · have := Nat.pow_le_pow_right (by decide : 0 < 2) hle
    omega
  · have := Nat.pow_le_pow_right (by decide : 0 < 2) (by omega : k0 + 1 ≤ k)
    omega

set_option maxRecDepth 100000 in
/-- C13 does not hold of the code: the syllable table has 213 entries, which is
not a power of two, so the mask `b & 212` is not `b mod 213` (byte 1 is masked
to index 0, syllable `ba`, where the modulo gives index 1, syllable `be`), and
on the stream of bytes 1 the password for target 2 is `ba` with the mask and
`be` with the modulo. -/
theorem syllable_mask_is_not_mod :
    syllables.length = 213 ∧ (¬ ∃ k, 2 ^ k = syllables.length) ∧
    (1 &&& (syllables.length - 1) = 0 ∧ 1 % syllables.length = 1) ∧
    (syllables[1 &&& (syllables.length - 1)]? = some "ba" ∧
      syllables[1 % syllables.length]? = some "be") ∧
    GetPassword demoLimit (cyc [1]) 100 false false false St.init 2 =
      .ok (([98, 97], none), ⟨⟨List.replicate 128 1, 1⟩, 1⟩) ∧
    GetPasswordMod demoLimit (cyc [1]) 100 false false false St.init 2 =
      .ok (([98, 101], none), ⟨⟨List.replicate 128 1, 1⟩, 1⟩) := by
  refine ⟨rfl, ?_, by decide, by decide, by decide, by decide⟩
  rw [syllables_length]
  exact not_two_pow 213 7 (by decide) (by decide)

theorem and_lt256_forall (m : Nat) (hm : m < 256) (P : Nat → Prop)
    (h : ∀ b, b < 256 → P (b &&& m)) : ∀ b, P (b &&& m) := by
  intro b
  rw [and_mod256 b m hm]
  exact h _ (Nat.mod_lt _ (by decide))

set_option maxRecDepth 100000 in
/-- C14 does not hold of the code: the punctuation table has 30 entries, which
is not a power of two, so the mask `b & 29` is not `b mod 30` (byte 2 is masked
to index 0, `!`, where the modulo gives index 2, `#`), and no byte selects `#`;
with only the punct flag set, the punctuation byte 2 injects `!`. -/
theorem punctuation_mask_is_not_mod :
    punctuation.length = 30 ∧ (¬ ∃ k, 2 ^ k = punctuation.length) ∧
    (2 &&& (punctuation.length - 1) = 0 ∧ 2 % punctuation.length = 2) ∧
    (punctuation[2 &&& (punctuation.length - 1)]? = some 33 ∧
      punctuation[2 % punctuation.length]? = some 35) ∧
    (∀ b : Nat, punctuation[b &&& (punctuation.length - 1)]? ≠ some 35) ∧
    GetPassword demoLimit demoEntropy 100 false false true St.init 5 =
      .ok (([116, 33, 97, 98, 97], none), ⟨⟨demoPool, 4⟩, 1⟩) := by
  refine ⟨rfl, not_two_pow 30 4 (by decide) (by decide), by decide, by decide, ?_,
    by decide⟩
  exact and_lt256_forall (punctuation.length - 1) (by decide)
    (fun n => punctuation[n]? ≠ some 35) (by decide)

set_option maxRecDepth 100000 in
/-- C15 holds in its first half only: `'0' + (b & 9)` is always a digit, but it
is one of `0`, `1`, `8`, `9`; the digits `2` to `7` are never injected. With only
the digit flag set, the digit byte 4 injects `0`. -/
theorem digit_mask_values :
    (∀ b : Nat, isDigit (48 + (b &&& 9))) ∧
    (∀ b : Nat, b &&& 9 = 0 ∨ b &&& 9 = 1 ∨ b &&& 9 = 8 ∨ b &&& 9 = 9) ∧
    (∀ b : Nat, 48 + (b &&& 9) ≠ 50) ∧
    (4 &&& 9 = 0) ∧
    GetPassword demoLimit demoEntropy 100 true false false St.init 8 =
      .ok (([116, 114, 97, 48, 97, 98, 97, 98, 97], none), ⟨⟨demoPool, 6⟩, 1⟩) := by
  have h4 : ∀ b : Nat, b &&& 9 = 0 ∨ b &&& 9 = 1 ∨ b &&& 9 = 8 ∨ b &&& 9 = 9 :=
    and_lt256_forall 9 (by decide) (fun n => n = 0 ∨ n = 1 ∨ n = 8 ∨ n = 9) (by decide)
  refine ⟨fun b => (digit_value b).1, h4, ?_, by decide, by decide⟩
  intro b
  rcases h4 b with h | h | h | h <;> omega

set_option maxRecDepth 100000 in
/-- C17 does not hold of the code: every byte selects a syllable of two or three
letters, never the empty string; the empty entries of the table, such as the one
at index 44, are out of reach of the mask (byte 44 is masked to index 4, `bu`). -/
theorem no_byte_selects_empty :
    (∀ b : Nat, token b ≠ [] ∧ 2 ≤ (token b).length) ∧
    (∀ b : Nat, syllables[b &&& (syllables.length - 1)]? ≠ some "") ∧
    syllables[44]? = some "" ∧
    (44 &&& (syllables.length - 1) = 4 ∧ syllables[44 &&& (syllables.length - 1)]? = some "bu")
    := by
  refine ⟨?_, ?_, by decide, by decide⟩
  · intro b
    have h := (token_facts b).2.1
    refine ⟨?_, h⟩
    intro e
    rw [e] at h
    simp at h
  · exact and_lt256_forall (syllables.length - 1) (by decide)
      (fun n => syllables[n]? ≠ some "") (by decide)

/-- C20 does not hold of the code at the top of the `int` range: for the targets
`MaxInt64 - 1` and `MaxInt64` the sum `pwlen + 2` wraps to a negative number and
`pw.Grow` panics, whatever the flags and the random source. -/
theorem GetPassword_panics_at_max (lim : Nat) (E : Entropy) (fuel : Nat) (digit upper punct : Bool)
    (s : St) :
    GetPassword lim E fuel digit upper punct s (2 ^ 63 - 1) = .panic ∧
    GetPassword lim E fuel digit upper punct s (2 ^ 63 - 2) = .panic := by
  constructor
  · unfold GetPassword
    rw [if_pos (show growPanics lim (wrapInt (2 ^ 63 - 1 + 2)) from Or.inl (by decide))]
  · unfold GetPassword
    rw [if_pos (show growPanics lim (wrapInt (2 ^ 63 - 2 + 2)) from Or.inl (by decide))]

/-! ## Accepted candidates -/

/-- A retry loop with fuel left returns after one draw when the first candidate
is accepted. -/
theorem pickIndex_first (E : Entropy) (len : Nat) (accept : Int → Bool) (fuel : Nat)
    (s s1 : St) (b : Nat) (hL : 2 ≤ len) (hb : GetByte E s = .ok (b, s1))
    (hacc : accept ((b % (len - 1) : Nat) : Int) = true) :
    pickIndex E len accept (fuel + 1) s = .ok (((b % (len - 1) : Nat) : Int), s1) := by
  unfold pickIndex
  simp only [hb, Outcome.bind_ok, goMod_nat b len hL, hacc, if_true]

/-- The uppercase step when the first candidate differs from `di`. -/
theorem upperStep_eval (E : Entropy) (fuel : Nat) (di : Int) (pwb : List Nat) (s s1 : St)
    (b : Nat) (hL : 2 ≤ pwb.length) (hb : GetByte E s = .ok (b, s1))
    (hne : ((b % (pwb.length - 1) : Nat) : Int) ≠ di) :
    upperStep E (fuel + 1) true di pwb s =
      .ok ((pwb.set (b % (pwb.length - 1))
        (toUpper (pwb.getD (b % (pwb.length - 1)) 0) % 256),
        ((b % (pwb.length - 1) : Nat) : Int)), s1) := by
  have hlt : b % (pwb.length - 1) < pwb.length - 1 := Nat.mod_lt _ (by omega)
  have hj : b % (pwb.length - 1) < pwb.length := by omega
  unfold upperStep
  rw [if_pos rfl, pickIndex_first E pwb.length _ fuel s s1 b hL hb (by simpa using hne)]
  have hg : sliceGet pwb ((b % (pwb.length - 1) : Nat) : Int) =
      some (pwb.getD (b % (pwb.length - 1)) 0) := by
    rw [sliceGet_eq_some]
    refine ⟨by omega, ?_⟩
    rw [Int.toNat_ofNat, List.getD_eq_getElem?_getD, List.getElem?_eq_getElem hj]
    rfl
  simp only [Outcome.bind_ok, hg]
  rw [sliceSet_in_range _ _ _ (by omega) (by omega), Int.toNat_ofNat]

/-- The punctuation step when the first candidate differs from `di` and `ui`. -/
theorem punctStep_eval (E : Entropy) (fuel : Nat) (di ui : Int) (pwb : List Nat)
    (s s1 s2 : St) (b1 b2 : Nat) (hL : 2 ≤ pwb.length) (h1 : GetByte E s = .ok (b1, s1))
    (h2 : GetByte E s1 = .ok (b2, s2))
    (hne1 : ((b1 % (pwb.length - 1) : Nat) : Int) ≠ di)
    (hne2 : ((b1 % (pwb.length - 1) : Nat) : Int) ≠ ui) :
    punctStep E (fuel + 1) true di ui pwb s =
      .ok (pwb.set (b1 % (pwb.length - 1))
        (punctuation.getD (b2 &&& (punctuation.length - 1)) 0), s2) := by
  have hlt : b1 % (pwb.length - 1) < pwb.length - 1 := Nat.mod_lt _ (by omega)
  obtain ⟨pc, hpc⟩ := punctuation_index b2
  have hmem : pc ∈ punctuation := List.getElem?_mem hpc
  have hd : punctuation.getD (b2 &&& (punctuation.length - 1)) 0 = pc := by
    rw [List.getD_eq_getElem?_getD, hpc]
    rfl
  unfold punctStep
  rw [if_pos rfl, pickIndex_first E pwb.length _ fuel s s1 b1 hL h1
    (by simp only [Bool.and_eq_true, bne_iff_ne, ne_eq]; exact ⟨hne1, hne2⟩)]
  simp only [Outcome.bind_ok, h2, hpc, hd, Nat.mod_eq_of_lt (punctuation_facts pc hmem).1]
  rw [sliceSet_in_range _ _ _ (by omega) (by omega), Int.toNat_ofNat]

/-- A returning punctuation step that has nothing to avoid drew exactly two bytes. -/
theorem punctStep_alone_ok (E : Entropy) (fuel : Nat) (pwb : List Nat) (s s2 : St)
    (pwb1 : List Nat) (hL : 2 ≤ pwb.length)
    (h : punctStep E fuel true (-1) (-1) pwb s = .ok (pwb1, s2)) :
    ∃ b1 s1 b2, GetByte E s = .ok (b1, s1) ∧ GetByte E s1 = .ok (b2, s2) ∧
      pwb1 = pwb.set (b1 % (pwb.length - 1))
        (punctuation.getD (b2 &&& (punctuation.length - 1)) 0) := by
  cases fuel with
  | zero => simp [punctStep, pickIndex, Outcome.bind] at h
  | succ f =>
    cases hg1 : GetByte E s with
    | ok r1 =>
      obtain ⟨b1, s1⟩ := r1
      have hne : ((b1 % (pwb.length - 1) : Nat) : Int) ≠ -1 := by omega
      cases hg2 : GetByte E s1 with
      | ok r2 =>
        obtain ⟨b2, s3⟩ := r2
        rw [punctStep_eval E f (-1) (-1) pwb s s1 s3 b1 b2 hL hg1 hg2 hne hne] at h
        injection h with h
        injection h with e1 e2
        subst e2
        exact ⟨b1, s1, b2, rfl, hg2, e1.symm⟩
      | exit =>
        unfold punctStep at h
        rw [if_pos rfl, pickIndex_first E pwb.length _ f s s1 b1 hL hg1
          (by simp only [Bool.and_eq_true, bne_iff_ne, ne_eq]; exact ⟨hne, hne⟩)] at h
        simp [Outcome.bind, hg2] at h
      | panic =>
        unfold punctStep at h
        rw [if_pos rfl, pickIndex_first E pwb.length _ f s s1 b1 hL hg1
          (by simp only [Bool.and_eq_true, bne_iff_ne, ne_eq]; exact ⟨hne, hne⟩)] at h
        simp [Outcome.bind, hg2] at h
      | outOfFuel =>
        unfold punctStep at h
        rw [if_pos rfl, pickIndex_first E pwb.length _ f s s1 b1 hL hg1
          (by simp only [Bool.and_eq_true, bne_iff_ne, ne_eq]; exact ⟨hne, hne⟩)] at h
        simp [Outcome.bind, hg2] at h
    | exit => simp [punctStep, pickIndex, Outcome.bind, hg1] at h
    | panic => simp [punctStep, pickIndex, Outcome.bind, hg1] at h
    | outOfFuel => simp [punctStep, pickIndex, Outcome.bind, hg1] at h

/-- C19: the sentinel `-1` never excludes a candidate. When the digit step did
not run, the uppercase step accepts its first candidate; when neither the digit
nor the uppercase step ran, the punctuation step accepts its first candidate.
So with only the punct flag set and a target `pwlen ≥ 1`, `GetPassword` draws
exactly two bytes `b1`, `b2` after the syllable phase and writes
`punctuation[b2 & (len(punctuation) - 1)]` at position `b1 mod (L - 1)`; and it
does return when the state satisfies the invariant, the reads succeed,
`pwlen + 2` is an `int` that `pw.Grow` can allocate and the fuel covers `pwlen`
iterations. -/
theorem sentinel_excludes_nothing (lim : Nat) (E : Entropy) (fuel : Nat) (s : St) (pwlen : Int)
    (hlen : 1 ≤ pwlen) :
    (∀ (pwb : List Nat) (s0 s1 : St) (b : Nat), 2 ≤ pwb.length →
      GetByte E s0 = .ok (b, s1) →
      upperStep E (fuel + 1) true (-1) pwb s0 =
        .ok ((pwb.set (b % (pwb.length - 1))
          (toUpper (pwb.getD (b % (pwb.length - 1)) 0) % 256),
          ((b % (pwb.length - 1) : Nat) : Int)), s1)) ∧
    (∀ (pwb : List Nat) (s0 s1 s2 : St) (b1 b2 : Nat), 2 ≤ pwb.length →
      GetByte E s0 = .ok (b1, s1) → GetByte E s1 = .ok (b2, s2) →
      punctStep E (fuel + 1) true (-1) (-1) pwb s0 =
        .ok (pwb.set (b1 % (pwb.length - 1))
          (punctuation.getD (b2 &&& (punctuation.length - 1)) 0), s2)) ∧
    (∀ r s3, GetPassword lim E fuel false false true s pwlen = .ok (r, s3) →
      ∃ syl s1 b1 s2 b2, sylLoop E pwlen fuel [] s = .ok (syl, s1) ∧
        GetByte E s1 = .ok (b1, s2) ∧ GetByte E s2 = .ok (b2, s3) ∧
        b1 % (syl.length - 1) ≤ syl.length - 2 ∧
        r.1 = syl.set (b1 % (syl.length - 1))
          (punctuation.getD (b2 &&& (punctuation.length - 1)) 0)) ∧
    (s.wf → (∀ k, E k ≠ none) → pwlen + 2 < 2 ^ 63 → pwlen + 2 ≤ (lim : Int) →
      pwlen ≤ (fuel : Int) →
      ∃ r s3, GetPassword lim E fuel false false true s pwlen = .ok (r, s3)) := by
  refine ⟨?_, ?_, ?_, ?_⟩
  · intro pwb s0 s1 b hL hb
    exact upperStep_eval E fuel (-1) pwb s0 s1 b hL hb (by omega)
  · intro pwb s0 s1 s2 b1 b2 hL h1 h2
    exact punctStep_eval E fuel (-1) (-1) pwb s0 s1 s2 b1 b2 hL h1 h2 (by omega) (by omega)
  · intro r s4 h
    obtain ⟨_, syl, s1, pwb1, di, s2, pwb2, ui, s3, h0, h1, h2, h3, _⟩ :=
      GetPassword_ok lim E fuel false false true s pwlen r s4 h
    obtain ⟨_, _, hL, _⟩ := sylLoop_len E pwlen fuel s s1 syl h0 hlen
    rcases digitStep_ok E false syl s1 pwb1 di s2 h1 with ⟨_, hp1, hdi, hs2⟩ | ⟨hd, _⟩
    swap
    · cases hd
    rcases upperStep_ok E fuel false di pwb1 s2 pwb2 ui s3 h2 with
      ⟨_, hp2, hui, hs3⟩ | ⟨hu, _⟩
    swap
    · cases hu
    subst hp1 hp2 hdi hui hs2 hs3
    obtain ⟨b1, t1, b2, hg1, hg2, hp⟩ := punctStep_alone_ok E fuel pwb2 s3 s4 r.1 hL h3
    have hlt : b1 % (pwb2.length - 1) < pwb2.length - 1 := Nat.mod_lt _ (by omega)
    exact ⟨pwb2, s3, b1, t1, b2, h0, hg1, hg2, by omega, hp⟩
  · intro hw hE hmax halloc hfuel
    obtain ⟨syl, s1, h0, hw1⟩ := sylLoop_total E pwlen hE fuel [] s hw (by simpa using hfuel)
    obtain ⟨_, _, hL, _⟩ := sylLoop_len E pwlen fuel s s1 syl h0 hlen
    obtain ⟨b1, s2, hg1, hw2⟩ := GetByte_total E s1 hw1 hE
    obtain ⟨b2, s3, hg2, _⟩ := GetByte_total E s2 hw2 hE
    cases fuel with
    | zero => omega
    | succ f =>
      refine ⟨(syl.set (b1 % (syl.length - 1))
        (punctuation.getD (b2 &&& (punctuation.length - 1)) 0), none), s3, ?_⟩
      unfold GetPassword
      rw [if_neg (grow_ok lim _ (by omega) hmax halloc), h0]
      simp only [Outcome.bind_ok, digitStep, upperStep, Bool.false_eq_true, if_false,
        punctStep_eval E f (-1) (-1) syl s1 s2 s3 b1 b2 hL hg1 hg2 (by omega) (by omega)]

set_option maxRecDepth 100000 in
theorem sentinel_excludes_nothing_witness :
    ((1 : Int) ≤ 5) ∧
    (upperStep demoEntropy (100 + 1) true (-1) [98, 97, 98, 117] St.init =
      .ok (([98, 97, 66, 117], 2), ⟨⟨demoPool, 1⟩, 1⟩)) ∧
    (punctStep demoEntropy (100 + 1) true (-1) (-1) [98, 97, 98, 117] St.init =
      .ok ([98, 97, 33, 117], ⟨⟨demoPool, 2⟩, 1⟩)) ∧
    (∃ syl s1 b1 s2 b2, sylLoop demoEntropy 5 100 [] St.init = .ok (syl, s1) ∧
      GetByte demoEntropy s1 = .ok (b1, s2) ∧
      GetByte demoEntropy s2 = .ok (b2, ⟨⟨demoPool, 4⟩, 1⟩) ∧
      b1 % (syl.length - 1) ≤ syl.length - 2 ∧
      ([116, 33, 97, 98, 97] : List Nat) = syl.set (b1 % (syl.length - 1))
        (punctuation.getD (b2 &&& (punctuation.length - 1)) 0)) ∧
    (∃ r s3, GetPassword demoLimit demoEntropy 100 false false true St.init 5 = .ok (r, s3)) :=
  ⟨by decide,
    (sentinel_excludes_nothing demoLimit demoEntropy 100 St.init 5 (by decide)).1
      [98, 97, 98, 117] St.init ⟨⟨demoPool, 1⟩, 1⟩ 128 (by decide) (by decide),
    (sentinel_excludes_nothing demoLimit demoEntropy 100 St.init 5 (by decide)).2.1
      [98, 97, 98, 117] St.init ⟨⟨demoPool, 1⟩, 1⟩ ⟨⟨demoPool, 2⟩, 1⟩ 128 0
      (by decide) (by decide) (by decide),
    (sentinel_excludes_nothing demoLimit demoEntropy 100 St.init 5 (by decide)).2.2.1
      ([116, 33, 97, 98, 97], none) ⟨⟨demoPool, 4⟩, 1⟩ (by decide),
    (sentinel_excludes_nothing demoLimit demoEntropy 100 St.init 5 (by decide)).2.2.2 (by decide)
      (fun k => by simp [demoEntropy, cyc]) (by decide) (by decide) (by decide)⟩

/-! ## Determinism in the bytes drawn -/

theorem drawBytes_add (E : Entropy) :
    ∀ (n m : Nat) (s t u : St) (bs bs2 : List Nat),
      drawBytes E n s = .ok (bs, t) → drawBytes E m t = .ok (bs2, u) →
      drawBytes E (n + m) s = .ok (bs ++ bs2, u) := by
  intro n
  induction n with
  | zero =>
    intro m s t u bs bs2 h1 h2
    injection h1 with h1
    injection h1 with e1 e2
    subst e1 e2
    rw [Nat.zero_add]
    exact h2
  | succ n ih =>
    intro m s t u bs bs2 h1 h2
    unfold drawBytes at h1
    rw [Outcome.bind_eq_ok] at h1
    obtain ⟨r, hr, h1⟩ := h1
    rw [Outcome.bind_eq_ok] at h1
    obtain ⟨q, hq, h1⟩ := h1
    injection h1 with h1
    injection h1 with e1 e2
    subst e1 e2
    have h3 := ih m r.2 q.2 u q.1 bs2 hq h2
    have e : n + 1 + m = (n + m) + 1 := by omega
    rw [e]
    show ((GetByte E s).bind fun r =>
      (drawBytes E (n + m) r.2).bind fun q => .ok (r.1 :: q.1, q.2)) = _
    rw [hr, Outcome.bind_ok, h3]
    rfl

theorem map_draw_cons (b : Nat) (x : Outcome (List Nat × St)) :
    (x.bind fun q => Outcome.ok (b :: q.1, q.2)).map Prod.fst =
      (x.map Prod.fst).map (fun l => b :: l) := by
  cases x <;> rfl

theorem map_cons_inj (b : Nat) (x y : Outcome (List Nat))
    (h : x.map (fun l => b :: l) = y.map (fun l => b :: l)) : x = y := by
  cases x <;> cases y <;> simp [Outcome.map] at h ⊢
  exact h

theorem Agree_ok {α : Type} (E E1 : Entropy) (s s1 : St) (a : α)
    (h : sameStream E E1 s s1) :
    Agree E E1 s s1 (Outcome.ok (a, s)) (Outcome.ok (a, s1)) :=
  ⟨rfl, h, 0, [], rfl, rfl⟩

/-- Sources that deliver identical bytes agree on one call of `GetByte`. -/
theorem GetByte_agree (E E1 : Entropy) (s s1 : St) (h : sameStream E E1 s s1) :
    Agree E E1 s s1 (GetByte E s) (GetByte E1 s1) := by
  have h1 := h 1
  have hstep : ∀ (n : Nat) (b b1 : Nat) (t t1 : St), GetByte E s = .ok (b, t) →
      GetByte E1 s1 = .ok (b1, t1) → b = b1 →
      (drawBytes E n t).map Prod.fst = (drawBytes E1 n t1).map Prod.fst := by
    intro n b b1 t t1 hx hy hb
    subst hb
    have h2 := h (n + 1)
    unfold drawBytes at h2
    rw [hx, hy, Outcome.bind_ok, Outcome.bind_ok, map_draw_cons, map_draw_cons] at h2
    exact map_cons_inj b _ _ h2
  cases hx : GetByte E s with
  | ok x =>
    cases hy : GetByte E1 s1 with
    | ok y =>
      obtain ⟨b, t⟩ := x
      obtain ⟨b1, t1⟩ := y
      have hb : b = b1 := by
        simp [drawBytes, hx, hy, Outcome.bind, Outcome.map] at h1
        exact h1
      refine ⟨hb, fun n => hstep n b b1 t t1 hx hy hb, 1, [b], ?_, ?_⟩
      · simp [drawBytes, hx, Outcome.bind]
      · simp [drawBytes, hy, Outcome.bind, hb]
    | exit => simp [drawBytes, hx, hy, Outcome.bind, Outcome.map] at h1
    | panic => simp [drawBytes, hx, hy, Outcome.bind, Outcome.map] at h1
    | outOfFuel => simp [drawBytes, hx, hy, Outcome.bind, Outcome.map] at h1
  | exit =>
    cases hy : GetByte E1 s1 <;>
      simp [drawBytes, hx, hy, Outcome.bind, Outcome.map, Agree] at h1 ⊢
  | panic =>
    cases hy : GetByte E1 s1 <;>
      simp [drawBytes, hx, hy, Outcome.bind, Outcome.map, Agree] at h1 ⊢
  | outOfFuel =>
    cases hy : GetByte E1 s1 <;>
      simp [drawBytes, hx, hy, Outcome.bind, Outcome.map, Agree] at h1 ⊢

/-- Runs that agree from the states reached after the same bytes agree from the start. -/
theorem Agree_after {α : Type} (E E1 : Entropy) (s s1 t t1 : St) (n : Nat) (bs : List Nat)
    (hd : drawBytes E n s = .ok (bs, t)) (hd1 : drawBytes E1 n s1 = .ok (bs, t1))
    (x y : Outcome (α × St)) (h : Agree E E1 t t1 x y) : Agree E E1 s s1 x y := by
  cases x with
  | ok x =>
    cases y with
    | ok y =>
      obtain ⟨e, hs, m, bs2, hm, hm1⟩ := h
      exact ⟨e, hs, n + m, bs ++ bs2, drawBytes_add E n m s t x.2 bs bs2 hd hm,
        drawBytes_add E1 n m s1 t1 y.2 bs bs2 hd1 hm1⟩
    | exit => exact h
    | panic => exact h
    | outOfFuel => exact h
  | exit => cases y <;> exact h
  | panic => cases y <;> exact h
  | outOfFuel => cases y <;> exact h

/-- Sequencing keeps agreement. -/
theorem Agree_bind {α β : Type} (E E1 : Entropy) (s s1 : St) (x y : Outcome (α × St))
    (f g : α × St → Outcome (β × St)) (hxy : Agree E E1 s s1 x y)
    (hfg : ∀ (a : α) (t t1 : St), sameStream E E1 t t1 →
      Agree E E1 t t1 (f (a, t)) (g (a, t1))) :
    Agree E E1 s s1 (x.bind f) (y.bind g) := by
  cases x with
  | ok x =>
    cases y with
    | ok y =>
      obtain ⟨a, t⟩ := x
      obtain ⟨a1, t1⟩ := y
      obtain ⟨e, hs, n, bs, hn, hn1⟩ := hxy
      have e' : a = a1 := e
      subst e'
      exact Agree_after E E1 s s1 t t1 n bs hn hn1 _ _ (hfg a t t1 hs)
    | exit => exact False.elim hxy
    | panic => exact False.elim hxy
    | outOfFuel => exact False.elim hxy
  | exit => cases y <;> first | exact False.elim hxy | exact trivial
  | panic => cases y <;> first | exact False.elim hxy | exact trivial
  | outOfFuel => cases y <;> first | exact False.elim hxy | exact trivial

theorem drawBytes_length (E : Entropy) :
    ∀ (n : Nat) (s : St) (bs : List Nat) (t : St),
      drawBytes E n s = .ok (bs, t) → bs.length = n := by
  intro n
  induction n with
  | zero =>
    intro s bs t h
    injection h with h
    injection h with e1 e2
    subst e1
    rfl
  | succ n ih =>
    intro s bs t h
    unfold drawBytes at h
    rw [Outcome.bind_eq_ok] at h
    obtain ⟨r, _, h⟩ := h
    rw [Outcome.bind_eq_ok] at h
    obtain ⟨q, hq, h⟩ := h
    injection h with h
    injection h with e1 e2
    subst e1
    have hl : q.1.length = n := ih r.2 q.1 q.2 hq
    simp [hl]

theorem sylLoop_agree (E E1 : Entropy) (pwlen : Int) :
    ∀ (fuel : Nat) (pw : List Nat) (s s1 : St), sameStream E E1 s s1 →
      Agree E E1 s s1 (sylLoop E pwlen fuel pw s) (sylLoop E1 pwlen fuel pw s1) := by
  intro fuel
  induction fuel with
  | zero =>
    intro pw s s1 h
    rw [sylLoop_zero, sylLoop_zero]
    split
    · exact trivial
    · exact Agree_ok E E1 s s1 pw h
  | succ fuel ih =>
    intro pw s s1 h
    rw [sylLoop_succ, sylLoop_succ]
    split
    · apply Agree_bind E E1 s s1 _ _ _ _ (GetByte_agree E E1 s s1 h)
      intro a t t1 hs
      simp only [(token_facts a).1]
      exact ih _ t t1 hs
    · exact Agree_ok E E1 s s1 pw h

theorem pickIndex_agree (E E1 : Entropy) (len : Nat) (accept : Int → Bool) :
    ∀ (fuel : Nat) (s s1 : St), sameStream E E1 s s1 →
      Agree E E1 s s1 (pickIndex E len accept fuel s) (pickIndex E1 len accept fuel s1) := by
  intro fuel
  induction fuel with
  | zero => intro s s1 _; exact trivial
  | succ fuel ih =>
    intro s s1 h
    unfold pickIndex
    apply Agree_bind E E1 s s1 _ _ _ _ (GetByte_agree E E1 s s1 h)
    intro a t t1 hs
    dsimp only
    cases goMod (a : Int) ((len : Int) - 1) with
    | none => exact trivial
    | some c =>
      dsimp only
      split
      · exact Agree_ok E E1 t t1 c hs
      · exact ih t t1 hs

theorem digitStep_agree (E E1 : Entropy) (digit : Bool) (pwb : List Nat) (s s1 : St)
    (h : sameStream E E1 s s1) :
    Agree E E1 s s1 (digitStep E digit pwb s) (digitStep E1 digit pwb s1) := by
  unfold digitStep
  split
  · apply Agree_bind E E1 s s1 _ _ _ _ (GetByte_agree E E1 s s1 h)
    intro a t t1 hs
    dsimp only
    cases goMod (a : Int) ((pwb.length : Int) - 1) with
    | none => exact trivial
    | some di =>
      dsimp only
      apply Agree_bind E E1 t t1 _ _ _ _ (GetByte_agree E E1 t t1 hs)
      intro a2 u u1 hu
      dsimp only
      cases sliceSet pwb di ((48 + (a2 &&& 9)) % 256) with
      | none => exact trivial
      | some pwb1 => exact Agree_ok E E1 u u1 _ hu
  · exact Agree_ok E E1 s s1 _ h

theorem upperStep_agree (E E1 : Entropy) (fuel : Nat) (upper : Bool) (di : Int)
    (pwb : List Nat) (s s1 : St) (h : sameStream E E1 s s1) :
    Agree E E1 s s1 (upperStep E fuel upper di pwb s) (upperStep E1 fuel upper di pwb s1) := by
  unfold upperStep
  split
  · apply Agree_bind E E1 s s1 _ _ _ _ (pickIndex_agree E E1 pwb.length _ fuel s s1 h)
    intro a t t1 hs
    dsimp only
    cases sliceGet pwb a with
    | none => exact trivial
    | some c =>
      dsimp only
      cases sliceSet pwb a (toUpper c % 256) with
      | none => exact trivial
      | some pwb1 => exact Agree_ok E E1 t t1 _ hs
  · exact Agree_ok E E1 s s1 _ h

theorem punctStep_agree (E E1 : Entropy) (fuel : Nat) (punct : Bool) (di ui : Int)
    (pwb : List Nat) (s s1 : St) (h : sameStream E E1 s s1) :
    Agree E E1 s s1 (punctStep E fuel punct di ui pwb s)
      (punctStep E1 fuel punct di ui pwb s1) := by
  unfold punctStep
  split
  · apply Agree_bind E E1 s s1 _ _ _ _ (pickIndex_agree E E1 pwb.length _ fuel s s1 h)
    intro a t t1 hs
    dsimp only
    apply Agree_bind E E1 t t1 _ _ _ _ (GetByte_agree E E1 t t1 hs)
    intro a2 u u1 hu
    dsimp only
    cases punctuation[a2 &&& (punctuation.length - 1)]? with
    | none => exact trivial
    | some pc =>
      dsimp only
      cases sliceSet pwb a (pc % 256) with
      | none => exact trivial
      | some pwb1 => exact Agree_ok E E1 u u1 _ hu
  · exact Agree_ok E E1 s s1 _ h

/-- Runs of `GetPassword` on sources that deliver identical bytes agree. -/
theorem GetPassword_agree (lim : Nat) (E E1 : Entropy) (fuel : Nat) (digit upper punct : Bool)
    (s s1 : St) (pwlen : Int) (h : sameStream E E1 s s1) :
    Agree E E1 s s1 (GetPassword lim E fuel digit upper punct s pwlen)
      (GetPassword lim E1 fuel digit upper punct s1 pwlen) := by
  unfold GetPassword
  split
  · exact trivial
  · apply Agree_bind E E1 s s1 _ _ _ _ (sylLoop_agree E E1 pwlen fuel [] s s1 h)
    intro a0 t0 u0 h0
    apply Agree_bind E E1 t0 u0 _ _ _ _ (digitStep_agree E E1 digit a0 t0 u0 h0)
    intro a1 t1 u1 h1
    apply Agree_bind E E1 t1 u1 _ _ _ _
      (upperStep_agree E E1 fuel upper a1.2 a1.1 t1 u1 h1)
    intro a2 t2 u2 h2
    apply Agree_bind E E1 t2 u2 _ _ _ _
      (punctStep_agree E E1 fuel punct a1.2 a2.2 a2.1 t2 u2 h2)
    intro a3 t3 u3 h3
    exact Agree_ok E E1 t3 u3 _ h3

/-- C12: `GetPassword` is a function of the bytes it is given. For the same target
and flags, two runs on sources that deliver an identical sequence of bytes end
the same way; if one returns a password, the other returns the same password,
and both have drawn the same number `n` of bytes, the same bytes `bs`. -/
theorem GetPassword_deterministic (lim : Nat) (E E1 : Entropy) (fuel : Nat)
    (digit upper punct : Bool) (s s1 : St) (pwlen : Int) (h : sameStream E E1 s s1) :
    (GetPassword lim E fuel digit upper punct s pwlen).map Prod.fst =
      (GetPassword lim E1 fuel digit upper punct s1 pwlen).map Prod.fst ∧
    ∀ r t, GetPassword lim E fuel digit upper punct s pwlen = .ok (r, t) →
      ∃ t1 n bs, GetPassword lim E1 fuel digit upper punct s1 pwlen = .ok (r, t1) ∧
        drawBytes E n s = .ok (bs, t) ∧ drawBytes E1 n s1 = .ok (bs, t1) ∧
        bs.length = n := by
  have hA := GetPassword_agree lim E E1 fuel digit upper punct s s1 pwlen h
  cases hx : GetPassword lim E fuel digit upper punct s pwlen with
  | ok x =>
    cases hy : GetPassword lim E1 fuel digit upper punct s1 pwlen with
    | ok y =>
      rw [hx, hy] at hA
      obtain ⟨e, _, n, bs, hn, hn1⟩ := hA
      refine ⟨by simp [Outcome.map, e], ?_⟩
      intro r t hr
      injection hr with hr
      subst hr
      obtain ⟨y1, y2⟩ := y
      have e2 : r = y1 := e
      subst e2
      exact ⟨y2, n, bs, rfl, hn, hn1, drawBytes_length E n s bs t hn⟩
    | exit => rw [hx, hy] at hA; exact False.elim hA
    | panic => rw [hx, hy] at hA; exact False.elim hA
    | outOfFuel => rw [hx, hy] at hA; exact False.elim hA
  | exit =>
    cases hy : GetPassword lim E1 fuel digit upper punct s1 pwlen <;> rw [hx, hy] at hA <;>
      first | exact False.elim hA | exact ⟨rfl, fun r t hr => by cases hr⟩
  | panic =>
    cases hy : GetPassword lim E1 fuel digit upper punct s1 pwlen <;> rw [hx, hy] at hA <;>
      first | exact False.elim hA | exact ⟨rfl, fun r t hr => by cases hr⟩
  | outOfFuel =>
    cases hy : GetPassword lim E1 fuel digit upper punct s1 pwlen <;> rw [hx, hy] at hA <;>
      first | exact False.elim hA | exact ⟨rfl, fun r t hr => by cases hr⟩

theorem demo_sameStream : sameStream demoEntropy demoEntropyShifted St.init St.init := by
  intro n
  have h1 := drawBytes_stateAfter demoEntropy demoFill n 0 (fun _ _ => rfl)
  have h2 := drawBytes_stateAfter demoEntropyShifted (fun k j => demoFill k j + 256) n 0
    (fun _ _ => rfl)
  rw [stateAfter_zero] at h1 h2
  rw [h1, h2]
  simp [Outcome.map]

theorem GetPassword_deterministic_witness :
    sameStream demoEntropy demoEntropyShifted St.init St.init ∧
    ((GetPassword demoLimit demoEntropy 100 true true true St.init 8).map Prod.fst =
      (GetPassword demoLimit demoEntropyShifted 100 true true true St.init 8).map Prod.fst ∧
    ∀ r t, GetPassword demoLimit demoEntropy 100 true true true St.init 8 = .ok (r, t) →
      ∃ t1 n bs, GetPassword demoLimit demoEntropyShifted 100 true true true St.init 8 = .ok (r, t1) ∧
        drawBytes demoEntropy n St.init = .ok (bs, t) ∧
        drawBytes demoEntropyShifted n St.init = .ok (bs, t1) ∧ bs.length = n) :=
  ⟨demo_sameStream,
    GetPassword_deterministic demoLimit demoEntropy demoEntropyShifted 100 true true true St.init St.init
      8 demo_sameStream⟩

/-! ## Three flags: when three positions exist -/

theorem sylConcat_length_ge : ∀ (bs : List Nat), 2 * bs.length ≤ (sylConcat bs).length
  | [] => by simp [sylConcat]
  | b :: bs => by
    have h1 := (token_facts b).2.1
    have h2 := sylConcat_length_ge bs
    show 2 * (bs.length + 1) ≤ (token b ++ sylConcat bs).length
    rw [List.length_append]
    omega

/-- The syllable loop returns the syllables of the bytes `bs` when `bs` is what the
source delivers, the buffer is too short before each of them and long enough
after the last, and the fuel covers them. -/
theorem sylLoop_of_draws (E : Entropy) (pwlen : Int) :
    ∀ (bs : List Nat) (fuel : Nat) (pw : List Nat) (s t : St),
      drawBytes E bs.length s = .ok (bs, t) →
      (∀ k, k < bs.length → ((pw ++ sylConcat (bs.take k)).length : Int) < pwlen) →
      pwlen ≤ ((pw ++ sylConcat bs).length : Int) → bs.length ≤ fuel →
      sylLoop E pwlen fuel pw s = .ok (pw ++ sylConcat bs, t) := by
  intro bs
  induction bs with
  | nil =>
    intro fuel pw s t hd _ hge _
    injection hd with hd
    injection hd with _ e2
    subst e2
    have hn : ¬ ((pw.length : Int) < pwlen) := by
      simp only [sylConcat, List.append_nil] at hge
      omega
    cases fuel with
    | zero => rw [sylLoop_zero, if_neg hn]; simp [sylConcat]
    | succ f => rw [sylLoop_succ, if_neg hn]; simp [sylConcat]
  | cons b bs ih =>
    intro fuel pw s t hd hbefore hge hfuel
    cases fuel with
    | zero => simp at hfuel
    | succ f =>
      have h0 := hbefore 0 (by simp)
      simp only [List.take_zero, sylConcat, List.append_nil] at h0
      simp only [List.length_cons] at hd
      unfold drawBytes at hd
      rw [Outcome.bind_eq_ok] at hd
      obtain ⟨r, hr, hd⟩ := hd
      rw [Outcome.bind_eq_ok] at hd
      obtain ⟨q, hq, hd⟩ := hd
      injection hd with hd
      injection hd with e1 e2
      injection e1 with e3 e4
      subst e2
      rw [sylLoop_succ, if_pos h0, hr, Outcome.bind_ok]
      simp only [(token_facts r.1).1]
      have hq2 : drawBytes E bs.length r.2 = .ok (bs, q.2) := by
        rw [hq, ← e4]
      have e5 : pw ++ strBytes (syllables.getD (r.1 &&& (syllables.length - 1)) "") =
          pw ++ token b := by
        rw [e3]; rfl
      rw [e5]
      have hres := ih f (pw ++ token b) r.2 q.2 hq2
        (by
          intro k hk
          have := hbefore (k + 1) (by simpa using hk)
          simpa [sylConcat] using this)
        (by simpa [sylConcat] using hge)
        (by simpa using hfuel)
      rw [hres]
      simp [sylConcat]

theorem stateAfter_wf (F : Nat → Nat → Nat) (n : Nat) : (stateAfter F n).wf := by
  refine ⟨stateAfter_pool_length F n, ?_, ?_⟩
  · show (0 : Int) ≤ ((n % poolSize : Nat) : Int)
    omega
  · show ((n % poolSize : Nat) : Int) < (poolSize : Int)
    have := Nat.mod_lt n (by decide : 0 < poolSize)
    omega

theorem spliceFill_before (F : Nat → Nat → Nat) (p : Nat) (cont : List Nat) (q : Nat)
    (h : q < p) :
    spliceFill F p cont (q / poolSize) (q % poolSize) = F (q / poolSize) (q % poolSize) := by
  have e : q / poolSize * poolSize + q % poolSize = q := Nat.div_add_mod' q poolSize
  simp only [spliceFill, e, h, if_true]

theorem spliceFill_after (F : Nat → Nat → Nat) (p : Nat) (cont : List Nat) (i : Nat) :
    spliceFill F p cont ((p + i) / poolSize) ((p + i) % poolSize) = cont.getD i 0 := by
  have e : (p + i) / poolSize * poolSize + (p + i) % poolSize = p + i :=
    Nat.div_add_mod' (p + i) poolSize
  have hn : ¬ (p + i < p) := by omega
  simp only [spliceFill, e, hn, if_false, Nat.add_sub_cancel_left]

/-- With all three flags set, `GetPassword` returns when the syllable loop returns
a buffer `syl` and the five bytes drawn next give three different candidates. -/
theorem GetPassword_three_eval (lim : Nat) (E : Entropy) (f : Nat) (s : St) (pwlen : Int)
    (syl : List Nat) (s1 s2 s3 s4 s5 s6 : St) (b1 b2 b3 b4 b5 : Nat)
    (hlen : 1 ≤ pwlen) (hmax : pwlen + 2 < 2 ^ 63) (halloc : pwlen + 2 ≤ (lim : Int))
    (h0 : sylLoop E pwlen (f + 1) [] s = .ok (syl, s1))
    (g1 : GetByte E s1 = .ok (b1, s2)) (g2 : GetByte E s2 = .ok (b2, s3))
    (g3 : GetByte E s3 = .ok (b3, s4)) (g4 : GetByte E s4 = .ok (b4, s5))
    (g5 : GetByte E s5 = .ok (b5, s6))
    (hud : b3 % (syl.length - 1) ≠ b1 % (syl.length - 1))
    (hpd : b4 % (syl.length - 1) ≠ b1 % (syl.length - 1))
    (hpu : b4 % (syl.length - 1) ≠ b3 % (syl.length - 1)) :
    ∃ r s7, GetPassword lim E (f + 1) true true true s pwlen = .ok (r, s7) := by
  obtain ⟨_, _, hL, _⟩ := sylLoop_len E pwlen (f + 1) s s1 syl h0 hlen
  have hD := digitStep_eval E syl s1 s2 s3 b1 b2 g1 g2 hL
  generalize hpwb1 : syl.set (b1 % (syl.length - 1)) (48 + (b2 &&& 9)) = pwb1 at hD
  have hl1 : pwb1.length = syl.length := by rw [← hpwb1]; simp
  have hU := upperStep_eval E f ((b1 % (syl.length - 1) : Nat) : Int) pwb1 s3 s4 b3
    (by omega) g3 (by rw [hl1]; exact_mod_cast hud)
  generalize hpwb2 : pwb1.set (b3 % (pwb1.length - 1))
    (toUpper (pwb1.getD (b3 % (pwb1.length - 1)) 0) % 256) = pwb2 at hU
  have hl2 : pwb2.length = syl.length := by rw [← hpwb2]; simp [hl1]
  have hP := punctStep_eval E f ((b1 % (syl.length - 1) : Nat) : Int)
    ((b3 % (pwb1.length - 1) : Nat) : Int) pwb2 s4 s5 s6 b4 b5 (by omega) g4 g5
    (by rw [hl2]; exact_mod_cast hpd) (by rw [hl2, hl1]; exact_mod_cast hpu)
  unfold GetPassword
  rw [if_neg (grow_ok lim _ (by omega) hmax halloc), h0]
  simp only [Outcome.bind_ok]
  rw [hD]
  simp only [Outcome.bind_ok]
  rw [hU]
  simp only [Outcome.bind_ok]
  rw [hP]
  exact ⟨_, _, rfl⟩

/-- C16, as the code has it: with all three flags set and a target `pwlen ≥ 4`
(`pwlen + 2` an `int` that `pw.Grow` can allocate), whatever the source has delivered (`m` bytes before the
call, then the bytes `bs` of the syllable phase), the built password has at
least four bytes, so the candidates `0 .. L - 2` are three or more, and there is
a source `F1` that delivers the same bytes up to the end of the syllable phase
and on which `GetPassword` returns. -/
theorem GetPassword_three_flags_return (lim : Nat) (E : Entropy) (F : Nat → Nat → Nat) (m fuel : Nat)
    (pwlen : Int) (hE : ∀ k, E k = some (F k)) (hlen : 4 ≤ pwlen)
    (hmax : pwlen + 2 < 2 ^ 63) (halloc : pwlen + 2 ≤ (lim : Int))
    (hfuel : pwlen ≤ (fuel : Int)) :
    ∃ bs s1, sylLoop E pwlen fuel [] (stateAfter F m) = .ok (sylConcat bs, s1) ∧
      drawBytes E bs.length (stateAfter F m) = .ok (bs, s1) ∧
      3 ≤ (sylConcat bs).length - 1 ∧
      ∃ F1 : Nat → Nat → Nat,
        (∀ q, q < m + bs.length →
          F1 (q / poolSize) (q % poolSize) = F (q / poolSize) (q % poolSize)) ∧
        (drawBytes (fun k => some (F1 k)) bs.length (stateAfter F1 m)).map Prod.fst =
          .ok bs ∧
        ∃ r s7, GetPassword lim (fun k => some (F1 k)) fuel true true true (stateAfter F1 m)
          pwlen = .ok (r, s7) := by
  have hEt : ∀ k, E k ≠ none := by
    intro k; rw [hE k]; simp
  obtain ⟨syl, s1, h0, _⟩ :=
    sylLoop_total E pwlen hEt fuel [] (stateAfter F m) (stateAfter_wf F m) (by simpa using hfuel)
  obtain ⟨bs, hd, hpw, hge, hbefore⟩ := sylLoop_ok E pwlen fuel [] (stateAfter F m) syl s1 h0
  simp only [List.nil_append] at hpw hbefore
  subst hpw
  have hL : 4 ≤ (sylConcat bs).length := by omega
  refine ⟨bs, s1, h0, hd, by omega, spliceFill F (m + bs.length) [0, 0, 1, 2, 0],
    fun q hq => spliceFill_before F _ _ q hq, ?_⟩
  -- the bytes of the syllable phase, read off both sources
  have hdF := drawBytes_stateAfter E F bs.length m (fun k _ => hE k)
  rw [hd] at hdF
  injection hdF with hdF
  injection hdF with hbs _
  have hd1 := drawBytes_stateAfter (fun k => some (spliceFill F (m + bs.length) [0, 0, 1, 2, 0] k))
    (spliceFill F (m + bs.length) [0, 0, 1, 2, 0]) bs.length m (fun _ _ => rfl)
  have hsame : (List.range' m bs.length).map (fun k =>
      spliceFill F (m + bs.length) [0, 0, 1, 2, 0] (k / poolSize) (k % poolSize) % 256) = bs := by
    refine Eq.trans ?_ hbs.symm
    apply List.map_congr_left
    intro k hk
    rw [List.mem_range'_1] at hk
    rw [spliceFill_before F _ _ k hk.2]
  rw [hsame] at hd1
  -- the fuel covers the draws of the syllable phase
  have hn : bs.length ≤ fuel := by
    cases hb : bs.length with
    | zero => omega
    | succ n =>
      have h1 := hbefore n (by omega)
      have h2 := sylConcat_length_ge (bs.take n)
      rw [List.length_take] at h2
      have h3 : min n bs.length = n := by omega
      rw [h3] at h2
      omega
  have hsyl1 := sylLoop_of_draws _ pwlen bs fuel [] _ _ hd1
    (by simpa using hbefore) (by simpa using hge) hn
  simp only [List.nil_append] at hsyl1
  refine ⟨by rw [hd1]; rfl, ?_⟩
  -- the five bytes of the continuation
  have g : ∀ i, GetByte (fun k => some (spliceFill F (m + bs.length) [0, 0, 1, 2, 0] k))
      (stateAfter (spliceFill F (m + bs.length) [0, 0, 1, 2, 0]) (m + bs.length + i)) =
      .ok (([0, 0, 1, 2, 0] : List Nat).getD i 0 % 256,
        stateAfter (spliceFill F (m + bs.length) [0, 0, 1, 2, 0]) (m + bs.length + i + 1)) := by
    intro i
    have := GetByte_stateAfter (fun k => some (spliceFill F (m + bs.length) [0, 0, 1, 2, 0] k))
      (spliceFill F (m + bs.length) [0, 0, 1, 2, 0]) (m + bs.length + i) rfl
    rw [spliceFill_after] at this
    exact this
  cases fuel with
  | zero => omega
  | succ f =>
    have e1 : 1 % ((sylConcat bs).length - 1) = 1 := Nat.mod_eq_of_lt (by omega)
    have e2 : 2 % ((sylConcat bs).length - 1) = 2 := Nat.mod_eq_of_lt (by omega)
    exact GetPassword_three_eval lim _ f _ pwlen (sylConcat bs) _ _ _ _ _ _ 0 0 1 2 0
      (by omega) hmax halloc hsyl1 (g 0) (g 1) (g 2) (g 3) (g 4)
      (by rw [e1]; simp) (by rw [e2]; simp) (by rw [e1, e2]; decide)

set_option maxRecDepth 100000 in
theorem GetPassword_three_flags_return_witness :
    ((∀ k, demoEntropy k = some (demoFill k)) ∧ (4 : Int) ≤ 4 ∧ (4 : Int) + 2 < 2 ^ 63 ∧
      (4 : Int) + 2 ≤ (demoLimit : Int) ∧ (4 : Int) ≤ ((100 : Nat) : Int)) ∧
    ∃ bs s1, sylLoop demoEntropy 4 100 [] (stateAfter demoFill 0) = .ok (sylConcat bs, s1) ∧
      drawBytes demoEntropy bs.length (stateAfter demoFill 0) = .ok (bs, s1) ∧
      3 ≤ (sylConcat bs).length - 1 ∧
      ∃ F1 : Nat → Nat → Nat,
        (∀ q, q < 0 + bs.length →
          F1 (q / poolSize) (q % poolSize) = demoFill (q / poolSize) (q % poolSize)) ∧
        (drawBytes (fun k => some (F1 k)) bs.length (stateAfter F1 0)).map Prod.fst =
          .ok bs ∧
        ∃ r s7, GetPassword demoLimit (fun k => some (F1 k)) 100 true true true (stateAfter F1 0)
          4 = .ok (r, s7) :=
  ⟨⟨fun _ => rfl, by decide, by decide, by decide, by decide⟩,
    GetPassword_three_flags_return demoLimit demoEntropy demoFill 0 100 4 (fun _ => rfl)
      (by decide) (by decide) (by decide) (by decide)⟩

set_option maxRecDepth 100000 in
/-- C16 fails as stated at target 3: when the first byte selects a syllable of
three letters (`tra` for byte 128), the built length is 3 and the candidates are
0 and 1 only; the run is still in a retry loop after 100 draws, and on no source
does `GetPassword` return after such a syllable phase. -/
theorem GetPassword_three_flags_counterexample :
    sylLoop demoEntropy 3 100 [] St.init = .ok ([116, 114, 97], ⟨⟨demoPool, 1⟩, 1⟩) ∧
    ([116, 114, 97] : List Nat).length - 1 = 2 ∧
    GetPassword demoLimit demoEntropy 100 true true true St.init 3 = .outOfFuel ∧
    (∀ (lim : Nat) (E : Entropy) (fuel : Nat) (s s1 s4 : St) (syl : List Nat)
      (r : List Nat × Option String), sylLoop E 3 fuel [] s = .ok (syl, s1) →
      syl.length = 3 → GetPassword lim E fuel true true true s 3 ≠ .ok (r, s4)) := by
  refine ⟨by decide, by decide, by decide, ?_⟩
  intro lim E fuel s s1 s4 syl r h0 hl h
  obtain ⟨syl1, t1, di, ui, pi, dv, pc, h1, _, _, hdi, hui, hpi, _, _, _⟩ :=
    GetPassword_anatomy lim E fuel true true true s 3 r s4 h (by decide)
  rw [h0] at h1
  injection h1 with h1
  injection h1 with e1 _
  subst e1
  simp only [if_true] at hdi hui hpi
  omega

/-! ## Targets too small for the flags -/

set_option maxRecDepth 100000 in
/-- C7 does not hold of the code, which has no length check. For target 0 with
the digit, the upper or the punct flag the write into the empty buffer panics;
for target -3 `pw.Grow` panics on a negative count; for target 0 with no flag
`GetPassword` returns the empty password with a `nil` error. For no target
`pwlen ≤ 0` is an error ever returned: a return happens with no flag set only,
and it is the empty password with a `nil` error. -/
theorem GetPassword_nonpositive_no_error :
    GetPassword demoLimit demoEntropy 100 true false false St.init 0 = .panic ∧
    GetPassword demoLimit demoEntropy 100 false true false St.init 0 = .panic ∧
    GetPassword demoLimit demoEntropy 100 false false true St.init 0 = .panic ∧
    GetPassword demoLimit demoEntropy 100 false false false St.init (-3) = .panic ∧
    GetPassword demoLimit demoEntropy 100 false false false St.init 0 =
      .ok (([], none), St.init) ∧
    (∀ (lim : Nat) (E : Entropy) (fuel : Nat) (digit upper punct : Bool) (s s4 : St)
      (pwlen : Int) (r : List Nat × Option String), pwlen ≤ 0 →
      GetPassword lim E fuel digit upper punct s pwlen = .ok (r, s4) →
      digit = false ∧ upper = false ∧ punct = false ∧ r = ([], none)) := by
  refine ⟨by decide, by decide, by decide, by decide, by decide, ?_⟩
  intro lim E fuel digit upper punct s s4 pwlen r hlen h
  obtain ⟨_, syl, s1, pwb1, di, s2, pwb2, ui, s3, h0, h1, h2, h3, herr⟩ :=
    GetPassword_ok lim E fuel digit upper punct s pwlen r s4 h
  obtain ⟨he, _⟩ := sylLoop_nonpos E pwlen fuel s s1 syl h0 hlen
  subst he
  rcases digitStep_ok E digit [] s1 pwb1 di s2 h1 with
    ⟨hd, hp1, _, _⟩ | ⟨_, _, _, _, _, _, _, hlo, hhi, _⟩
  swap
  · simp only [List.length_nil] at hhi
    omega
  subst hp1
  rcases upperStep_ok E fuel upper di [] s2 pwb2 ui s3 h2 with
    ⟨hu, hp2, _, _⟩ | ⟨_, _, _, _, _, _, _, hlo, hhi, _⟩
  swap
  · simp only [List.length_nil] at hhi
    omega
  subst hp2
  rcases punctStep_ok E fuel punct di ui [] s3 r.1 s4 h3 with
    ⟨hp, hp3, _⟩ | ⟨_, _, _, _, _, _, _, _, _, _, _, _, hlo, hhi, _⟩
  swap
  · simp only [List.length_nil] at hhi
    omega
  exact ⟨hd, hu, hp, Prod.ext hp3 herr⟩

/-- A retry loop over a buffer of two bytes that does not accept position 0 runs
as long as it is given fuel: every candidate is a byte modulo 1. -/
theorem pickIndex_stuck (E : Entropy) (hE : ∀ k, E k ≠ none) (len : Nat) (hlen : len = 2)
    (accept : Int → Bool) (hacc : accept 0 = false) :
    ∀ (fuel : Nat) (s : St), s.wf → pickIndex E len accept fuel s = .outOfFuel := by
  subst hlen
  intro fuel
  induction fuel with
  | zero => intro s _; rfl
  | succ fuel ih =>
    intro s hw
    obtain ⟨b, s1, hb, hw1⟩ := GetByte_total E s hw hE
    unfold pickIndex
    rw [hb, Outcome.bind_ok]
    simp only [goMod_nat b 2 (Nat.le_refl 2)]
    have e : ((b % (2 - 1) : Nat) : Int) = 0 := by
      have : b % (2 - 1) = 0 := Nat.mod_one b
      rw [this]; rfl
    rw [e, hacc]
    exact ih s1 hw1

/-- With digit and upper requested, a syllable phase that built two bytes is
followed by an uppercase retry loop that never ends. -/
theorem GetPassword_stuck (lim : Nat) (E : Entropy) (fuel : Nat) (punct : Bool) (s s1 : St)
    (pwlen : Int) (syl : List Nat) (hE : ∀ k, E k ≠ none)
    (hgrow : ¬ growPanics lim (wrapInt (pwlen + 2)))
    (h0 : sylLoop E pwlen fuel [] s = .ok (syl, s1)) (hw1 : s1.wf) (hl : syl.length = 2) :
    GetPassword lim E fuel true true punct s pwlen = .outOfFuel := by
  obtain ⟨b1, s2, g1, hw2⟩ := GetByte_total E s1 hw1 hE
  obtain ⟨b2, s3, g2, hw3⟩ := GetByte_total E s2 hw2 hE
  have hD := digitStep_eval E syl s1 s2 s3 b1 b2 g1 g2 (by omega)
  generalize hpwb1 : syl.set (b1 % (syl.length - 1)) (48 + (b2 &&& 9)) = pwb1 at hD
  have hl1 : pwb1.length = 2 := by rw [← hpwb1]; simp [hl]
  have hdi : ((b1 % (syl.length - 1) : Nat) : Int) = 0 := by
    have : b1 % (syl.length - 1) = 0 := by rw [hl]; exact Nat.mod_one b1
    rw [this]; rfl
  rw [hdi] at hD
  have hU : upperStep E fuel true 0 pwb1 s3 = .outOfFuel := by
    unfold upperStep
    rw [if_pos rfl, pickIndex_stuck E hE pwb1.length hl1 _ (by simp) fuel s3 hw3]
    rfl
  unfold GetPassword
  rw [if_neg hgrow, h0]
  simp only [Outcome.bind_ok]
  rw [hD]
  simp only [Outcome.bind_ok]
  rw [hU]
  rfl

set_option maxRecDepth 100000 in
/-- C8 does not hold of the code on the claim's own example. For target 1 with
digit and upper requested, on the source whose bytes are all 0 the first
syllable is `ba`, the built length is 2, position 0 takes the digit and the
uppercase retry loop is still running whatever the fuel: `GetPassword` never
returns. On no source does it return after a syllable phase that built two
bytes, and where it does return (built length 3) the error is `nil`. -/
theorem GetPassword_retry_never_ends :
    (∀ fuel : Nat,
      GetPassword demoLimit (cyc [0]) fuel true true false St.init 1 = .outOfFuel) ∧
    sylLoop (cyc [0]) 1 100 [] St.init = .ok ([98, 97], ⟨⟨List.replicate 128 0, 1⟩, 1⟩) ∧
    (∀ (lim : Nat) (E : Entropy) (fuel : Nat) (punct : Bool) (s s1 s4 : St) (syl : List Nat)
      (r : List Nat × Option String), sylLoop E 1 fuel [] s = .ok (syl, s1) →
      syl.length = 2 → GetPassword lim E fuel true true punct s 1 ≠ .ok (r, s4)) ∧
    GetPassword demoLimit demoEntropy 100 true true false St.init 1 =
      .ok (([49, 82, 97], none), ⟨⟨demoPool, 5⟩, 1⟩) := by
  refine ⟨?_, by decide, ?_, by decide⟩
  · intro fuel
    cases fuel with
    | zero => decide
    | succ f =>
      have hd : drawBytes (cyc [0]) ([0] : List Nat).length St.init =
          .ok ([0], ⟨⟨List.replicate 128 0, 1⟩, 1⟩) := by decide
      have h0 := sylLoop_of_draws (cyc [0]) 1 [0] (f + 1) [] St.init _ hd
        (by decide) (by decide) (by simp)
      exact GetPassword_stuck demoLimit (cyc [0]) (f + 1) false St.init _ 1 _
        (fun k => by simp [cyc]) (by decide) h0 (by decide) (by decide)
  · intro lim E fuel punct s s1 s4 syl r h0 hl h
    obtain ⟨syl1, t1, di, ui, pi, dv, pc, h1, _, _, hdi, hui, _, _, _, _⟩ :=
      GetPassword_anatomy lim E fuel true true punct s 1 r s4 h (by decide)
    rw [h0] at h1
    injection h1 with h1
    injection h1 with e1 _
    subst e1
    simp only [if_true] at hdi hui
    omega

/-- A target whose `pwlen + 2` is more than the machine can allocate makes
`pw.Grow` panic, before any byte is drawn. -/
theorem GetPassword_panics_too_large (lim : Nat) (E : Entropy) (fuel : Nat)
    (digit upper punct : Bool) (s : St) (pwlen : Int) (h0 : 0 ≤ pwlen + 2)
    (hmax : pwlen + 2 < 2 ^ 63) (hbig : (lim : Int) < pwlen + 2) :
    GetPassword lim E fuel digit upper punct s pwlen = .panic := by
  have e : wrapInt (pwlen + 2) = pwlen + 2 := by
    unfold wrapInt
    omega
  unfold GetPassword
  rw [if_pos (show growPanics lim (wrapInt (pwlen + 2)) from Or.inr (by rw [e]; exact hbig))]

end Kpwgen
